import Mathlib

/-!
Verification of the loops component (Convex integration for Loops.so).

This file gives a shallow embedding of the analytics/rate-limiting core:
the email-operation log, the three windowed rate-limit checks, the spam
detectors, the statistics aggregator, the contact store with its
namespace-partitioned aggregate counter, and the backfill mutation.

Conventions of the embedding:
* The `emailOperations` table is a `List EmailOp` in creation (insertion)
  order.  A Convex index range `withIndex(ix, q.eq(...).gte("timestamp", c))`
  returns the matching documents ordered by the indexed fields with
  `_creationTime` as the final tie-breaker and ascending order by default;
  we model this as a stable insertion sort on `timestamp` applied to the
  filtered creation-ordered list (for an equality-constrained prefix the
  remaining order is exactly `(timestamp, creationTime)`).
* `.take(n)` is `List.take n`.
* JavaScript `Map` (insertion-ordered, unique keys) is an association list;
  `Record<string, number>` likewise; `Set<string>` is a list with
  membership-guarded insertion.
* JavaScript numbers holding timestamps/durations are `Int`; counts are `Nat`.
* A `for`/`push` accumulation loop is rendered as `foldl`/`filterMap` over
  the same sequence in the same order.
-/

namespace Loops

/-- A document of the `emailOperations` table (fields read by the analytics
queries; the optional correlation ids `transactionalId`/`campaignId`/`loopId`/
`eventName`/`messageId`/`metadata` are never read by any verified query and
are omitted). -/
structure EmailOp where
  operationType : String
  email : String
  actorId : Option String
  timestamp : Int
  success : Bool
deriving DecidableEq, Repr

/-- Insert an operation into a timestamp-sorted list, before the first
element of timestamp not smaller than its own (stable with respect to the
original order, mirroring the `_creationTime` tie-break of a Convex index). -/
def insertByTs (a : EmailOp) : List EmailOp → List EmailOp
  | [] => [a]
  | b :: l => if a.timestamp ≤ b.timestamp then a :: b :: l else b :: insertByTs a l

/-- Stable sort by `timestamp` ascending (insertion sort). -/
def sortByTs : List EmailOp → List EmailOp
  | [] => []
  | a :: l => insertByTs a (sortByTs l)

/-- Index range `withIndex("email", q => q.eq("email", e).gte("timestamp", cutoff))`:
the operations of recipient `e` with `timestamp ≥ cutoff`, ordered by
`(timestamp, _creationTime)` ascending. -/
def emailIndexRange (log : List EmailOp) (e : String) (cutoff : Int) : List EmailOp :=
  sortByTs (log.filter (fun op => op.email == e && decide (cutoff ≤ op.timestamp)))

/-- Index range `withIndex("actorId", q => q.eq("actorId", a).gte("timestamp", cutoff))`. -/
def actorIndexRange (log : List EmailOp) (a : String) (cutoff : Int) : List EmailOp :=
  sortByTs (log.filter (fun op => op.actorId == some a && decide (cutoff ≤ op.timestamp)))

/-- Index range `withIndex("timestamp", q => q.gte("timestamp", cutoff))`. -/
def timestampIndexRange (log : List EmailOp) (cutoff : Int) : List EmailOp :=
  sortByTs (log.filter (fun op => decide (cutoff ≤ op.timestamp)))

/-- Result shape of `checkRecipientRateLimit` / `checkActorRateLimit`
(`rateLimitResponseValidator`). -/
structure RateLimitResult where
  allowed : Bool
  count : Nat
  limit : Nat
  timeWindowMs : Int
  retryAfter : Option Int
deriving DecidableEq, Repr

/-- Result shape of `checkGlobalRateLimit` (no `retryAfter`). -/
structure GlobalRateLimitResult where
  allowed : Bool
  count : Nat
  limit : Nat
  timeWindowMs : Int
deriving DecidableEq, Repr

/-- JavaScript reduce without an initial value starts from the first element:
the source computes
`oldestOp = recentOps.reduce((oldest, op) => op.timestamp < oldest.timestamp ? op : oldest)`. -/
def oldestOf (o : EmailOp) (rest : List EmailOp) : EmailOp :=
  rest.foldl (fun oldest op => if op.timestamp < oldest.timestamp then op else oldest) o

/-- The retryAfter value as computed by the recipient/actor checks: only defined when
the request is not allowed and at least one successful operation was read,
`(oldestOp.timestamp + timeWindowMs) - now` floored at `0`. -/
def retryAfterOf (recentOps : List EmailOp) (allowed : Bool) (timeWindowMs now : Int) :
    Option Int :=
  match recentOps with
  | [] => none
  | o :: rest =>
      if allowed then none
      else
        let oldestOp := oldestOf o rest
        let r := oldestOp.timestamp + timeWindowMs - now
        some (if r < 0 then 0 else r)

/-- Source `checkRecipientRateLimit` from `src/component/queries.ts`. -/
def checkRecipientRateLimit (log : List EmailOp) (now : Int) (email : String)
    (timeWindowMs : Int) (maxEmails : Nat) : RateLimitResult :=
  let cutoffTime := now - timeWindowMs
  let operations := (emailIndexRange log email cutoffTime).take (maxEmails + 1)
  let recentOps := operations.filter (·.success)
  let count := recentOps.length
  let allowed : Bool := count < maxEmails
  { allowed := allowed
    count := count
    limit := maxEmails
    timeWindowMs := timeWindowMs
    retryAfter := retryAfterOf recentOps allowed timeWindowMs now }

/-- Source `checkActorRateLimit` from `src/component/queries.ts`. -/
def checkActorRateLimit (log : List EmailOp) (now : Int) (actorId : String)
    (timeWindowMs : Int) (maxEmails : Nat) : RateLimitResult :=
  let cutoffTime := now - timeWindowMs
  let operations := (actorIndexRange log actorId cutoffTime).take (maxEmails + 1)
  let recentOps := operations.filter (·.success)
  let count := recentOps.length
  let allowed : Bool := count < maxEmails
  { allowed := allowed
    count := count
    limit := maxEmails
    timeWindowMs := timeWindowMs
    retryAfter := retryAfterOf recentOps allowed timeWindowMs now }

/-- Source `checkGlobalRateLimit` from `src/component/queries.ts`. -/
def checkGlobalRateLimit (log : List EmailOp) (now : Int)
    (timeWindowMs : Int) (maxEmails : Nat) : GlobalRateLimitResult :=
  let cutoffTime := now - timeWindowMs
  let operations := (timestampIndexRange log cutoffTime).take (maxEmails + 1)
  let recentOps := operations.filter (·.success)
  let count := recentOps.length
  let allowed : Bool := count < maxEmails
  { allowed := allowed
    count := count
    limit := maxEmails
    timeWindowMs := timeWindowMs }

/-- The zod-wrapped `checkRecipientRateLimit` handler (the duplicate
implementation shipped next to the component one); transcribed independently
from its own source. -/
def zCheckRecipientRateLimit (log : List EmailOp) (now : Int) (email : String)
    (timeWindowMs : Int) (maxEmails : Nat) : RateLimitResult :=
  let cutoffTime := now - timeWindowMs
  let operations := (emailIndexRange log email cutoffTime).take (maxEmails + 1)
  let recentOps := operations.filter (fun op => op.success)
  let count := recentOps.length
  let allowed : Bool := count < maxEmails
  let retryAfter := retryAfterOf recentOps allowed timeWindowMs now
  { allowed := allowed
    count := count
    limit := maxEmails
    timeWindowMs := timeWindowMs
    retryAfter := retryAfter }

/-- The zod-wrapped `checkGlobalRateLimit` handler. -/
def zCheckGlobalRateLimit (log : List EmailOp) (now : Int)
    (timeWindowMs : Int) (maxEmails : Nat) : GlobalRateLimitResult :=
  let cutoffTime := now - timeWindowMs
  let operations := (timestampIndexRange log cutoffTime).take (maxEmails + 1)
  let recentOps := operations.filter (fun op => op.success)
  let count := recentOps.length
  let allowed : Bool := count < maxEmails
  { allowed := allowed
    count := count
    limit := maxEmails
    timeWindowMs := timeWindowMs }

/-- Cap `MAX_SPAM_DETECTION_LIMIT` on the operations read by the detectors and
the statistics query. -/
def MAX_SPAM_DETECTION_LIMIT : Nat := 8000

/-- JavaScript `Map.get` on the insertion-ordered entry list. -/
def mapGet : List (String × Nat) → String → Option Nat
  | [], _ => none
  | e :: m, k => if e.1 == k then some e.2 else mapGet m k

/-- JavaScript `Map.set`: update an existing entry in place, else append. -/
def mapSet : List (String × Nat) → String → Nat → List (String × Nat)
  | [], k, v => [(k, v)]
  | e :: m, k, v => if e.1 == k then (k, v) :: m else e :: mapSet m k v

/-- The truthiness-and-sentinel guard `op.email && op.email !== "audience"`
used by `detectRecipientSpam`, `getEmailStats` and the email pass of
`detectRapidFirePatterns`, as a grouping key. -/
def emailKey (op : EmailOp) : Option String :=
  if op.email ≠ "" ∧ op.email ≠ "audience" then some op.email else none

/-- The truthiness guard `if (op.actorId)` used by the actor pass. -/
def actorKey (op : EmailOp) : Option String :=
  match op.actorId with
  | some a => if a ≠ "" then some a else none
  | none => none

/-- One step of a counting loop
`counts.set(key(op), (counts.get(key(op)) ?? 0) + 1)` guarded by `key`. -/
def bumpBy (key : EmailOp → Option String) (m : List (String × Nat)) (op : EmailOp) :
    List (String × Nat) :=
  match key op with
  | some k => mapSet m k ((mapGet m k).getD 0 + 1)
  | none => m

/-- Entry of the array returned by `detectRecipientSpam`
(`recipientSpamValidator`). -/
structure RecipientSpamEntry where
  email : String
  count : Nat
  timeWindowMs : Int
deriving DecidableEq, Repr

/-- Source `detectRecipientSpam` from `src/component/queries.ts`: count in-window
operations per recipient (success and failure alike, sentinel and empty
recipients excluded) over a capped read, and report recipients whose count
strictly exceeds the threshold. -/
def detectRecipientSpam (log : List EmailOp) (now : Int)
    (timeWindowMs? : Option Int) (maxEmailsPerRecipient? : Option Nat) :
    List RecipientSpamEntry :=
  let timeWindowMs := timeWindowMs?.getD 3600000
  let maxEmailsPerRecipient := maxEmailsPerRecipient?.getD 10
  let cutoffTime := now - timeWindowMs
  let operations := (timestampIndexRange log cutoffTime).take MAX_SPAM_DETECTION_LIMIT
  let emailCounts := operations.foldl (bumpBy emailKey) []
  emailCounts.filterMap (fun kc =>
    if maxEmailsPerRecipient < kc.2 then
      some { email := kc.1, count := kc.2, timeWindowMs := timeWindowMs }
    else none)

/-- JavaScript `Set.add` (strings): append when missing. -/
def setAdd (s : List String) (k : String) : List String :=
  if k ∈ s then s else s ++ [k]

/-- A `Set<string>` filled from the operations through a truthiness guard. -/
def setFold (key : EmailOp → Option String) (ops : List EmailOp) : List String :=
  ops.foldl (fun s op =>
    match key op with
    | some k => setAdd s k
    | none => s) []

/-- Result shape of `getEmailStats` (`emailStatsResponseValidator`), with
`operationsByType` as the insertion-ordered entries of the record. -/
structure EmailStats where
  totalOperations : Nat
  successfulOperations : Nat
  failedOperations : Nat
  operationsByType : List (String × Nat)
  uniqueRecipients : Nat
  uniqueActors : Nat
deriving DecidableEq, Repr

/-- Source `getEmailStats` from `src/component/queries.ts`. -/
def getEmailStats (log : List EmailOp) (now : Int) (timeWindowMs? : Option Int) :
    EmailStats :=
  let timeWindowMs := timeWindowMs?.getD 86400000
  let cutoffTime := now - timeWindowMs
  let operations := (timestampIndexRange log cutoffTime).take MAX_SPAM_DETECTION_LIMIT
  { totalOperations := operations.length
    successfulOperations := (operations.filter (fun op => op.success)).length
    failedOperations := (operations.filter (fun op => !op.success)).length
    operationsByType := operations.foldl (bumpBy (fun op => some op.operationType)) []
    uniqueRecipients := (setFold emailKey operations).length
    uniqueActors := (setFold actorKey operations).length }

/-- Entry of the array returned by `detectRapidFirePatterns`
(`rapidFirePatternValidator`). -/
structure RapidFirePattern where
  email : Option String
  actorId : Option String
  count : Nat
  timeWindowMs : Int
  firstTimestamp : Int
  lastTimestamp : Int
deriving DecidableEq, Repr

/-- Append via `groups.get(k).push(op)`, creating the entry on first use
(insertion-ordered `Map<string, Doc[]>`). -/
def groupAdd : List (String × List EmailOp) → String → EmailOp → List (String × List EmailOp)
  | [], k, op => [(k, [op])]
  | e :: m, k, op => if e.1 == k then (k, e.2 ++ [op]) :: m else e :: groupAdd m k op

/-- Lookup `m.get(k)` on the multimap, defaulting to the empty group. -/
def groupGet : List (String × List EmailOp) → String → List EmailOp
  | [], _ => []
  | e :: m, k => if e.1 == k then e.2 else groupGet m k

/-- The grouping loops of `detectRapidFirePatterns`. -/
def groupBy (key : EmailOp → Option String) (l : List EmailOp) :
    List (String × List EmailOp) :=
  l.foldl (fun m op =>
    match key op with
    | some k => groupAdd m k op
    | none => m) []

/-- The anchor loop of `detectRapidFirePatterns` over one group: every
operation's timestamp opens a window `[t, t + W]`; a pattern record is built
whenever at least `minE` of the group's operations fall inside it. -/
def groupPatterns (build : String → Nat → Int → Int → RapidFirePattern)
    (W : Int) (minE : Nat) (g : String × List EmailOp) : List RapidFirePattern :=
  g.2.filterMap (fun op =>
    let windowStart := op.timestamp
    let windowEnd := windowStart + W
    let opsInWindow := g.2.filter
      (fun o => decide (windowStart ≤ o.timestamp) && decide (o.timestamp ≤ windowEnd))
    if minE ≤ opsInWindow.length then
      some (build g.1 opsInWindow.length windowStart windowEnd)
    else none)

/-- Source `detectRapidFirePatterns` from `src/component/queries.ts`. -/
def detectRapidFirePatterns (log : List EmailOp) (now : Int)
    (timeWindowMs? : Option Int) (minEmailsInWindow? : Option Nat) :
    List RapidFirePattern :=
  let timeWindowMs := timeWindowMs?.getD 60000
  let minEmailsInWindow := minEmailsInWindow?.getD 5
  let cutoffTime := now - timeWindowMs
  let operations := (timestampIndexRange log cutoffTime).take MAX_SPAM_DETECTION_LIMIT
  let sortedOps := sortByTs operations
  let emailGroups := groupBy emailKey sortedOps
  let actorGroups := groupBy actorKey sortedOps
  (emailGroups.map (groupPatterns
      (fun k c ws we => ⟨some k, none, c, timeWindowMs, ws, we⟩)
      timeWindowMs minEmailsInWindow)).flatten ++
    (actorGroups.map (groupPatterns
      (fun k c ws we => ⟨none, some k, c, timeWindowMs, ws, we⟩)
      timeWindowMs minEmailsInWindow)).flatten

/-! ### Facts about the stable timestamp sort -/

/-- The list is sorted by timestamp (ascending). -/
abbrev tsSorted (l : List EmailOp) : Prop :=
  l.Pairwise (fun a b => a.timestamp ≤ b.timestamp)

theorem insertByTs_perm (a : EmailOp) (l : List EmailOp) :
    List.Perm (insertByTs a l) (a :: l) := by
  induction l with
  | nil => simp [insertByTs]
  | cons b t ih =>
      by_cases h : a.timestamp ≤ b.timestamp
      · simp [insertByTs, h]
      · rw [insertByTs, if_neg h]
        exact List.Perm.trans (ih.cons b) (List.Perm.swap a b t)

theorem sortByTs_perm (l : List EmailOp) : List.Perm (sortByTs l) l := by
  induction l with
  | nil => simp [sortByTs]
  | cons a t ih =>
      exact List.Perm.trans (insertByTs_perm a (sortByTs t)) (ih.cons a)

theorem insertByTs_sorted {l : List EmailOp} (a : EmailOp) (h : tsSorted l) :
    tsSorted (insertByTs a l) := by
  induction l with
  | nil => simp [insertByTs]
  | cons b t ih =>
      obtain ⟨hb, ht⟩ := List.pairwise_cons.mp h
      by_cases hab : a.timestamp ≤ b.timestamp
      · rw [insertByTs, if_pos hab]
        refine List.pairwise_cons.mpr ⟨?_, List.pairwise_cons.mpr ⟨hb, ht⟩⟩
        intro x hx
        rcases List.mem_cons.mp hx with hx | hx
        · subst hx; exact hab
        · exact le_trans hab (hb x hx)
      · rw [insertByTs, if_neg hab]
        refine List.pairwise_cons.mpr ⟨?_, ih ht⟩
        intro x hx
        rcases List.mem_cons.mp ((insertByTs_perm a t).mem_iff.mp hx) with hx | hx
        · subst hx; omega
        · exact hb x hx

theorem sortByTs_sorted (l : List EmailOp) : tsSorted (sortByTs l) := by
  induction l with
  | nil => simp [sortByTs]
  | cons a t ih => exact insertByTs_sorted a ih

/-- Inserting into a sorted list with a distinguished middle element: the
result of inserting into the list without that element differs from the
result of inserting with it by exactly its re-insertion at a matching spot. -/
theorem insertByTs_middle_split (a s : EmailOp) :
    ∀ (l1 l2 : List EmailOp), tsSorted (l1 ++ s :: l2) →
      ∃ m1 m2, insertByTs a (l1 ++ l2) = m1 ++ m2 ∧
        insertByTs a (l1 ++ s :: l2) = m1 ++ s :: m2 := by
  intro l1
  induction l1 with
  | nil =>
      intro l2 hsorted
      rw [List.nil_append] at hsorted
      rw [tsSorted, List.pairwise_cons] at hsorted
      obtain ⟨hs, _⟩ := hsorted
      by_cases hab : a.timestamp ≤ s.timestamp
      · refine ⟨[a], l2, ?_, ?_⟩
        · cases l2 with
          | nil => simp [insertByTs]
          | cons z t =>
              have hz : a.timestamp ≤ z.timestamp :=
                le_trans hab (hs z (List.mem_cons_self z t))
              simp [insertByTs, hz]
        · simp [insertByTs, hab]
      · refine ⟨[], insertByTs a l2, rfl, ?_⟩
        simp [insertByTs, hab]
  | cons b t ih =>
      intro l2 hsorted
      have htail : tsSorted (t ++ s :: l2) := by
        rw [List.cons_append] at hsorted
        exact (List.pairwise_cons.mp hsorted).2
      by_cases hab : a.timestamp ≤ b.timestamp
      · refine ⟨a :: b :: t, l2, ?_, ?_⟩
        · show insertByTs a (b :: (t ++ l2)) = a :: b :: (t ++ l2)
          rw [insertByTs, if_pos hab]
        · show insertByTs a (b :: (t ++ s :: l2)) = a :: b :: (t ++ s :: l2)
          rw [insertByTs, if_pos hab]
      · obtain ⟨m1, m2, h1, h2⟩ := ih l2 htail
        refine ⟨b :: m1, m2, ?_, ?_⟩
        · show insertByTs a (b :: (t ++ l2)) = b :: (m1 ++ m2)
          rw [insertByTs, if_neg hab, h1]
        · show insertByTs a (b :: (t ++ s :: l2)) = b :: (m1 ++ s :: m2)
          rw [insertByTs, if_neg hab, h2]

/-- Appending one operation to the log inserts it at a single position of the
sorted view, leaving the relative order of the others unchanged. -/
theorem sortByTs_append_last (s : EmailOp) :
    ∀ (l : List EmailOp), ∃ l1 l2, sortByTs l = l1 ++ l2 ∧
      sortByTs (l ++ [s]) = l1 ++ s :: l2 := by
  intro l
  induction l with
  | nil => exact ⟨[], [], rfl, rfl⟩
  | cons a t ih =>
      obtain ⟨l1, l2, h1, h2⟩ := ih
      have hsorted : tsSorted (l1 ++ s :: l2) := by
        rw [← h2]; exact sortByTs_sorted (t ++ [s])
      obtain ⟨m1, m2, g1, g2⟩ := insertByTs_middle_split a s l1 l2 hsorted
      refine ⟨m1, m2, ?_, ?_⟩
      · show insertByTs a (sortByTs t) = m1 ++ m2
        rw [h1, g1]
      · show insertByTs a (sortByTs (t ++ [s])) = m1 ++ s :: m2
        rw [h2, g2]

theorem countP_take_succ_le (p : EmailOp → Bool) :
    ∀ (l : List EmailOp) (k : Nat),
      (l.take (k + 1)).countP p ≤ (l.take k).countP p + 1 := by
  intro l
  induction l with
  | nil => intro k; simp
  | cons a t ih =>
      intro k
      cases k with
      | zero =>
          simp only [List.take_zero, List.take_succ_cons, List.take_zero]
          by_cases h : p a <;> simp [List.countP_cons, h]
      | succ k =>
          simp only [List.take_succ_cons, List.countP_cons]
          have := ih k
          omega

/-- Inserting an element satisfying `p` anywhere never decreases the number of
`p`-elements among the first `k`. -/
theorem countP_take_middle_le (p : EmailOp → Bool) (s : EmailOp) (hs : p s = true) :
    ∀ (l1 l2 : List EmailOp) (k : Nat),
      ((l1 ++ l2).take k).countP p ≤ ((l1 ++ s :: l2).take k).countP p := by
  intro l1
  induction l1 with
  | nil =>
      intro l2 k
      cases k with
      | zero => simp
      | succ k =>
          simp only [List.nil_append, List.take_succ_cons, List.countP_cons, hs, if_true]
          have := countP_take_succ_le p l2 k
          omega
  | cons b t ih =>
      intro l2 k
      cases k with
      | zero => simp
      | succ k =>
          simp only [List.cons_append, List.take_succ_cons, List.countP_cons]
          have := ih l2 k
          omega

/-- Removing a middle element that fails `p` does not change a filter by `p`. -/
theorem filter_middle_of_neg (p : EmailOp → Bool) (s : EmailOp) (hs : p s = false)
    (l1 l2 : List EmailOp) : (l1 ++ s :: l2).filter p = (l1 ++ l2).filter p := by
  simp [List.filter_append, List.filter_cons, hs]

/-! ### Association-list counting and set facts -/

/-- The keys of an association list. -/
def keysOf (m : List (String × Nat)) : List String := m.map Prod.fst

theorem mapGet_mapSet (m : List (String × Nat)) (k k2 : String) (v : Nat) :
    mapGet (mapSet m k v) k2 = if k2 = k then some v else mapGet m k2 := by
  induction m with
  | nil =>
      simp only [mapSet, mapGet]
      by_cases h : k2 = k
      · subst h; simp
      · rw [if_neg h, if_neg (by simp [beq_iff_eq]; exact fun hh => h hh.symm)]
  | cons e t ih =>
      simp only [mapSet]
      by_cases h1 : e.1 = k
      · rw [if_pos (beq_iff_eq.mpr h1)]
        simp only [mapGet]
        by_cases h2 : k2 = k
        · subst h2; simp
        · rw [if_neg (by simp [beq_iff_eq]; exact fun hh => h2 hh.symm), if_neg h2,
            if_neg (by simp [beq_iff_eq]; rw [h1]; exact fun hh => h2 hh.symm)]
      · rw [if_neg (by simp [beq_iff_eq]; exact h1)]
        show (if e.1 == k2 then some e.2 else mapGet (mapSet t k v) k2) = _
        by_cases h2 : e.1 = k2
        · have hk2 : k2 ≠ k := fun hh => h1 (hh ▸ h2)
          rw [if_pos (beq_iff_eq.mpr h2), if_neg hk2]
          show some e.2 = if e.1 == k2 then some e.2 else mapGet t k2
          rw [if_pos (beq_iff_eq.mpr h2)]
        · rw [if_neg (by simpa [beq_iff_eq] using h2), ih]
          by_cases h3 : k2 = k
          · rw [if_pos h3, if_pos h3]
          · rw [if_neg h3, if_neg h3]
            show mapGet t k2 = if e.1 == k2 then some e.2 else mapGet t k2
            rw [if_neg (by simpa [beq_iff_eq] using h2)]

/-- The counting fold computes, for every admitted key, the number of
operations carrying that key. -/
theorem bumpBy_get (key : EmailOp → Option String) (ops : List EmailOp) :
    ∀ (acc : List (String × Nat)) (k : String),
      (mapGet (ops.foldl (bumpBy key) acc) k).getD 0 =
        (mapGet acc k).getD 0 + ops.countP (fun op => key op == some k) := by
  induction ops with
  | nil => intro acc k; simp
  | cons op t ih =>
      intro acc k
      rw [List.foldl_cons, List.countP_cons, ih]
      cases hk : key op with
      | none => simp [bumpBy, hk]
      | some k0 =>
          simp only [bumpBy, hk]
          by_cases hkk : k = k0
          · subst hkk
            rw [mapGet_mapSet, if_pos rfl]
            simp only [Option.getD_some, beq_self_eq_true, if_true]
            omega
          · rw [mapGet_mapSet, if_neg hkk]
            have : ((some k0 == some k : Bool)) = false := by
              simp [beq_iff_eq]; exact fun hh => hkk hh.symm
            simp [this]

theorem mapSet_keysOf (m : List (String × Nat)) (k : String) (v : Nat) :
    keysOf (mapSet m k v) = if k ∈ keysOf m then keysOf m else keysOf m ++ [k] := by
  induction m with
  | nil => simp [mapSet, keysOf]
  | cons e t ih =>
      simp only [mapSet, keysOf, List.map_cons]
      by_cases h1 : e.1 = k
      · rw [if_pos (beq_iff_eq.mpr h1), if_pos (by simp [h1, List.mem_cons])]
        simp [h1, keysOf]
      · rw [if_neg (by simpa [beq_iff_eq] using h1)]
        simp only [List.map_cons]
        by_cases h2 : k ∈ keysOf t
        · rw [if_pos (by simp [keysOf] at h2 ⊢; exact Or.inr h2)]
          have := ih
          rw [if_pos h2] at this
          simp only [keysOf] at this
          rw [this]
        · rw [if_neg (by simp [keysOf] at h2 ⊢; exact ⟨fun hh => h1 hh.symm, h2⟩)]
          have := ih
          rw [if_neg h2] at this
          simp only [keysOf] at this
          rw [this, List.cons_append]

theorem bumpBy_keys_nodup (key : EmailOp → Option String) (ops : List EmailOp) :
    ∀ (acc : List (String × Nat)), (keysOf acc).Nodup →
      (keysOf (ops.foldl (bumpBy key) acc)).Nodup := by
  induction ops with
  | nil => intro acc h; simpa using h
  | cons op t ih =>
      intro acc h
      rw [List.foldl_cons]
      refine ih _ ?_
      cases hk : key op with
      | none => simpa [bumpBy, hk] using h
      | some k0 =>
          simp only [bumpBy, hk]
          rw [mapSet_keysOf]
          by_cases hm : k0 ∈ keysOf acc
          · rw [if_pos hm]; exact h
          · rw [if_neg hm]
            simp [List.nodup_append, h, hm]

theorem mapGet_eq_some_mem {m : List (String × Nat)} {k : String} {c : Nat}
    (h : mapGet m k = some c) : (k, c) ∈ m := by
  induction m with
  | nil => simp [mapGet] at h
  | cons e t ih =>
      rw [mapGet] at h
      by_cases h1 : e.1 = k
      · rw [if_pos (beq_iff_eq.mpr h1)] at h
        have : e = (k, c) := by
          cases e; simp at h h1 ⊢; exact ⟨h1, h⟩
        rw [this] at *
        exact List.mem_cons_self _ _
      · rw [if_neg (by simpa [beq_iff_eq] using h1)] at h
        exact List.mem_cons_of_mem e (ih h)

theorem mem_mapGet {m : List (String × Nat)} {k : String} {c : Nat}
    (hnd : (keysOf m).Nodup) (h : (k, c) ∈ m) : mapGet m k = some c := by
  induction m with
  | nil => simp at h
  | cons e t ih =>
      simp only [keysOf, List.map_cons, List.nodup_cons] at hnd
      rcases List.mem_cons.mp h with h | h
      · rw [← h, mapGet, if_pos (by simp)]
      · have hk : k ∈ keysOf t := by
          simp only [keysOf, List.mem_map]
          exact ⟨(k, c), h, rfl⟩
        have h1 : e.1 ≠ k := fun hh => hnd.1 (hh ▸ hk)
        rw [mapGet, if_neg (by simpa [beq_iff_eq] using h1)]
        exact ih hnd.2 h

theorem bumpBy_keys_from (key : EmailOp → Option String) (ops : List EmailOp) :
    ∀ (acc : List (String × Nat)) (k : String),
      k ∈ keysOf (ops.foldl (bumpBy key) acc) →
        k ∈ keysOf acc ∨ ∃ op ∈ ops, key op = some k := by
  induction ops with
  | nil => intro acc k h; exact Or.inl (by simpa using h)
  | cons op t ih =>
      intro acc k h
      rw [List.foldl_cons] at h
      rcases ih _ k h with h | ⟨op2, hmem, hk⟩
      · cases hk : key op with
        | none =>
            rw [bumpBy, hk] at h
            exact Or.inl h
        | some k0 =>
            rw [bumpBy, hk, mapSet_keysOf] at h
            by_cases hm : k0 ∈ keysOf acc
            · rw [if_pos hm] at h; exact Or.inl h
            · rw [if_neg hm] at h
              rcases List.mem_append.mp h with h | h
              · exact Or.inl h
              · simp at h
                exact Or.inr ⟨op, List.mem_cons_self _ _, h ▸ hk⟩
      · exact Or.inr ⟨op2, List.mem_cons_of_mem op hmem, hk⟩

/-- Membership in the counting fold characterises exactly the admitted keys
with a positive count. -/
theorem bumpBy_mem (key : EmailOp → Option String) (ops : List EmailOp)
    (k : String) (c : Nat) (h : (k, c) ∈ ops.foldl (bumpBy key) []) :
    (∃ op ∈ ops, key op = some k) ∧ c = ops.countP (fun op => key op == some k) := by
  have hnd := bumpBy_keys_nodup key ops [] (by simp [keysOf])
  have hget := mem_mapGet hnd h
  have hcount := bumpBy_get key ops [] k
  rw [hget] at hcount
  simp only [mapGet, Option.getD_some, Option.getD_none] at hcount
  have hkeys : k ∈ keysOf (ops.foldl (bumpBy key) []) := by
    simp only [keysOf, List.mem_map]
    exact ⟨(k, c), h, rfl⟩
  rcases bumpBy_keys_from key ops [] k hkeys with hbad | hgood
  · simp [keysOf] at hbad
  · exact ⟨hgood, by omega⟩

theorem bumpBy_mem_of (key : EmailOp → Option String) (ops : List EmailOp)
    (k : String) (hpos : 1 ≤ ops.countP (fun op => key op == some k)) :
    (k, ops.countP (fun op => key op == some k)) ∈ ops.foldl (bumpBy key) [] := by
  have hcount := bumpBy_get key ops [] k
  simp only [mapGet, Option.getD_none] at hcount
  cases hg : mapGet (ops.foldl (bumpBy key) []) k with
  | none => rw [hg] at hcount; simp at hcount; omega
  | some c =>
      rw [hg] at hcount
      simp only [Option.getD_some, Nat.zero_add] at hcount
      subst hcount
      exact mapGet_eq_some_mem hg

theorem setAdd_nodup {s : List String} (hs : s.Nodup) (k : String) :
    (setAdd s k).Nodup := by
  rw [setAdd]
  by_cases h : k ∈ s
  · rw [if_pos h]; exact hs
  · rw [if_neg h]; simp [List.nodup_append, hs, h]

theorem setAdd_toFinset (s : List String) (k : String) :
    (setAdd s k).toFinset = insert k s.toFinset := by
  rw [setAdd]
  by_cases h : k ∈ s
  · rw [if_pos h, Finset.insert_eq_self.mpr (List.mem_toFinset.mpr h)]
  · rw [if_neg h]
    simp only [List.toFinset_append, List.toFinset_cons, List.toFinset_nil]
    rw [Finset.union_comm]
    simp [Finset.insert_eq]

theorem setFold_invariant (key : EmailOp → Option String) (ops : List EmailOp) :
    ∀ (acc : List String), acc.Nodup →
      (ops.foldl (fun s op =>
        match key op with
        | some k => setAdd s k
        | none => s) acc).Nodup ∧
      (ops.foldl (fun s op =>
        match key op with
        | some k => setAdd s k
        | none => s) acc).toFinset = acc.toFinset ∪ (ops.filterMap key).toFinset := by
  induction ops with
  | nil => intro acc hacc; simp [hacc]
  | cons op t ih =>
      intro acc hacc
      rw [List.foldl_cons, List.filterMap_cons]
      cases hk : key op with
      | none => simpa using ih acc hacc
      | some k =>
          obtain ⟨h1, h2⟩ := ih (setAdd acc k) (setAdd_nodup hacc k)
          refine ⟨h1, ?_⟩
          rw [h2, setAdd_toFinset, List.toFinset_cons, Finset.insert_union,
            Finset.union_insert]

/-- The length of the deduplicating set fold equals the number of distinct
admitted keys. -/
theorem setFold_length (key : EmailOp → Option String) (ops : List EmailOp) :
    (setFold key ops).length = (ops.filterMap key).dedup.length := by
  obtain ⟨h1, h2⟩ := setFold_invariant key ops [] List.nodup_nil
  rw [setFold, ← List.toFinset_card_of_nodup h1, h2]
  simp [List.card_toFinset]

theorem insertByTs_of_le {l : List EmailOp} (a : EmailOp)
    (h : ∀ x ∈ l, a.timestamp ≤ x.timestamp) : insertByTs a l = a :: l := by
  cases l with
  | nil => rfl
  | cons b t => rw [insertByTs, if_pos (h b (List.mem_cons_self b t))]

/-- Sorting an already-sorted list is the identity. -/
theorem sortByTs_of_sorted {l : List EmailOp} (h : tsSorted l) : sortByTs l = l := by
  induction l with
  | nil => rfl
  | cons a t ih =>
      obtain ⟨ha, ht⟩ := List.pairwise_cons.mp h
      rw [sortByTs, ih ht]
      exact insertByTs_of_le a ha

/-- Filtering commutes with insertion into a sorted list. -/
theorem filter_insertByTs (p : EmailOp → Bool) (a : EmailOp) :
    ∀ {l : List EmailOp}, tsSorted l →
      (insertByTs a l).filter p =
        if p a then insertByTs a (l.filter p) else l.filter p := by
  intro l
  induction l with
  | nil =>
      intro _
      by_cases hp : p a <;> simp [insertByTs, List.filter, hp]
  | cons b t ih =>
      intro h
      obtain ⟨hb, ht⟩ := List.pairwise_cons.mp h
      by_cases hab : a.timestamp ≤ b.timestamp
      · rw [insertByTs, if_pos hab]
        by_cases hp : p a
        · rw [if_pos hp, List.filter_cons_of_pos hp]
          have hle : ∀ x ∈ (b :: t).filter p, a.timestamp ≤ x.timestamp := by
            intro x hx
            rcases List.mem_cons.mp (List.mem_of_mem_filter hx) with hx | hx
            · subst hx; exact hab
            · exact le_trans hab (hb x hx)
          rw [insertByTs_of_le a hle]
        · rw [if_neg hp, List.filter_cons_of_neg hp]
      · rw [insertByTs, if_neg hab]
        by_cases hpb : p b
        · rw [List.filter_cons_of_pos hpb, ih ht]
          by_cases hp : p a
          · rw [if_pos hp, if_pos hp, List.filter_cons_of_pos hpb, insertByTs, if_neg hab]
          · rw [if_neg hp, if_neg hp, List.filter_cons_of_pos hpb]
        · rw [List.filter_cons_of_neg hpb, ih ht]
          by_cases hp : p a
          · rw [if_pos hp, if_pos hp, List.filter_cons_of_neg hpb]
          · rw [if_neg hp, if_neg hp, List.filter_cons_of_neg hpb]

/-- Filtering commutes with the stable sort. -/
theorem filter_sortByTs (p : EmailOp → Bool) (l : List EmailOp) :
    (sortByTs l).filter p = sortByTs (l.filter p) := by
  induction l with
  | nil => rfl
  | cons a t ih =>
      rw [sortByTs, filter_insertByTs p a (sortByTs_sorted t)]
      by_cases hp : p a
      · rw [if_pos hp, ih, List.filter_cons_of_pos hp, sortByTs]
      · rw [if_neg hp, ih, List.filter_cons_of_neg hp]

theorem countP_take_le {α : Type} (p : α → Bool) (l : List α) (n : Nat) :
    (l.take n).countP p ≤ l.countP p := by
  conv_rhs => rw [← List.take_append_drop n l]
  rw [List.countP_append]
  omega

theorem countP_add_countP_not {α : Type} (p : α → Bool) (l : List α) :
    l.countP p + l.countP (fun a => !(p a)) = l.length := by
  induction l with
  | nil => simp
  | cons a t ih =>
      by_cases h : p a <;> simp [List.countP_cons, h] <;> omega

/-- For a non-empty, non-sentinel key, the email grouping key agrees with a
plain equality test on the recipient. -/
theorem emailKey_beq (e : String) (he1 : e ≠ "") (he2 : e ≠ "audience")
    (op : EmailOp) : (emailKey op == some e) = (op.email == e) := by
  rw [emailKey]
  by_cases h : op.email ≠ "" ∧ op.email ≠ "audience"
  · rw [if_pos h]
    rfl
  · rw [if_neg h]
    have hne : op.email ≠ e := by
      rcases not_and_or.mp h with h | h
      · rw [not_not.mp h]; exact fun hh => he1 hh.symm
      · rw [not_not.mp h]; exact fun hh => he2 hh.symm
    simp [beq_iff_eq, hne]

/-- The actor grouping key likewise, for a non-empty actor id. -/
theorem actorKey_beq (a : String) (ha : a ≠ "") (op : EmailOp) :
    (actorKey op == some a) = (op.actorId == some a) := by
  rw [actorKey]
  cases hid : op.actorId with
  | none => rfl
  | some x =>
      show ((if x ≠ "" then some x else none) == some a) = (some x == some a)
      by_cases hx : x ≠ ""
      · rw [if_pos hx]
      · rw [if_neg hx]
        have : x ≠ a := by rw [not_not.mp hx]; exact fun hh => ha hh.symm
        simp [beq_iff_eq, this]

/-! ### Behaviour of the rate-limit core under log growth -/

/-- Appending a successful operation to the log never decreases the number of
successful operations among the first `k` index-ordered matches. -/
theorem success_count_mono (F : EmailOp → Bool) (log : List EmailOp) (s : EmailOp)
    (hs : s.success = true) (k : Nat) :
    (((sortByTs (log.filter F)).take k).filter (fun op => op.success)).length ≤
      (((sortByTs (((log ++ [s]).filter F))).take k).filter (fun op => op.success)).length := by
  rw [List.filter_append]
  by_cases hF : F s
  · rw [show List.filter F [s] = [s] by simp [hF]]
    obtain ⟨l1, l2, h1, h2⟩ := sortByTs_append_last s (log.filter F)
    rw [h1, h2, ← List.countP_eq_length_filter, ← List.countP_eq_length_filter]
    exact countP_take_middle_le (fun op => op.success) s hs l1 l2 k
  · rw [show List.filter F [s] = [] by simp [hF], List.append_nil]

/-- Appending an unsuccessful operation leaves the read successful operations
unchanged, provided the whole matching range still fits in the `k` fetched
records. -/
theorem recent_append_failed (F : EmailOp → Bool) (log : List EmailOp) (f : EmailOp)
    (hf : f.success = false) (k : Nat)
    (hlen : ((log ++ [f]).filter F).length ≤ k) :
    ((sortByTs ((log ++ [f]).filter F)).take k).filter (fun op => op.success) =
      ((sortByTs (log.filter F)).take k).filter (fun op => op.success) := by
  rw [List.filter_append] at hlen ⊢
  by_cases hF : F f
  · rw [show List.filter F [f] = [f] by simp [hF]] at hlen ⊢
    obtain ⟨l1, l2, h1, h2⟩ := sortByTs_append_last f (log.filter F)
    have hlen2 : (sortByTs (log.filter F ++ [f])).length ≤ k := by
      rw [(sortByTs_perm (log.filter F ++ [f])).length_eq]; exact hlen
    rw [h2] at hlen2 ⊢
    have hlen1 : (sortByTs (log.filter F)).length ≤ k := by
      rw [h1]
      have := hlen2
      simp only [List.length_append, List.length_cons] at this ⊢
      omega
    rw [h1, List.take_of_length_le hlen2, List.take_of_length_le (by rw [← h1]; exact hlen1)]
    exact filter_middle_of_neg (fun op => op.success) f hf l1 l2
  · rw [show List.filter F [f] = [] by simp [hF], List.append_nil]

/-- The matching range of the recipient index, written without the sort. -/
theorem emailIndexRange_length (log : List EmailOp) (e : String) (cutoff : Int) :
    (emailIndexRange log e cutoff).length =
      (log.filter (fun op => op.email == e && decide (cutoff ≤ op.timestamp))).length :=
  (sortByTs_perm _).length_eq

theorem actorIndexRange_length (log : List EmailOp) (a : String) (cutoff : Int) :
    (actorIndexRange log a cutoff).length =
      (log.filter (fun op => op.actorId == some a && decide (cutoff ≤ op.timestamp))).length :=
  (sortByTs_perm _).length_eq

theorem timestampIndexRange_length (log : List EmailOp) (cutoff : Int) :
    (timestampIndexRange log cutoff).length =
      (log.filter (fun op => decide (cutoff ≤ op.timestamp))).length :=
  (sortByTs_perm _).length_eq

/-- C2: every rate-limit decision is strict (`allowed` holds exactly when
`count < maxEmails`, so a key exactly at the limit is blocked), and for a
fixed window and limit the returned count is non-decreasing as a further
successful operation is logged — hence `allowed` flips from true to false
exactly when the count reaches `maxEmails`. -/
theorem rateLimit_strict_and_monotone (log : List EmailOp) (now : Int) (e a : String)
    (W : Int) (m : Nat) (s : EmailOp) (hs : s.success = true) :
    ((checkRecipientRateLimit log now e W m).allowed = true ↔
      (checkRecipientRateLimit log now e W m).count < m) ∧
    ((checkActorRateLimit log now a W m).allowed = true ↔
      (checkActorRateLimit log now a W m).count < m) ∧
    ((checkGlobalRateLimit log now W m).allowed = true ↔
      (checkGlobalRateLimit log now W m).count < m) ∧
    (checkRecipientRateLimit log now e W m).count ≤
      (checkRecipientRateLimit (log ++ [s]) now e W m).count ∧
    (checkActorRateLimit log now a W m).count ≤
      (checkActorRateLimit (log ++ [s]) now a W m).count ∧
    (checkGlobalRateLimit log now W m).count ≤
      (checkGlobalRateLimit (log ++ [s]) now W m).count := by
  refine ⟨decide_eq_true_iff, decide_eq_true_iff, decide_eq_true_iff, ?_, ?_, ?_⟩
  · exact success_count_mono
      (fun op => op.email == e && decide (now - W ≤ op.timestamp)) log s hs (m + 1)
  · exact success_count_mono
      (fun op => op.actorId == some a && decide (now - W ≤ op.timestamp)) log s hs (m + 1)
  · exact success_count_mono
      (fun op => decide (now - W ≤ op.timestamp)) log s hs (m + 1)

/-- A successful operation used to instantiate the rate-limit theorems. -/
def wOp : EmailOp := ⟨"transactional", "e", some "a", 7, true⟩

theorem rateLimit_strict_and_monotone_witness :
    wOp.success = true ∧
    (((checkRecipientRateLimit [] 4 "e" 10 1).allowed = true ↔
        (checkRecipientRateLimit [] 4 "e" 10 1).count < 1) ∧
      ((checkActorRateLimit [] 4 "a" 10 1).allowed = true ↔
        (checkActorRateLimit [] 4 "a" 10 1).count < 1) ∧
      ((checkGlobalRateLimit [] 4 10 1).allowed = true ↔
        (checkGlobalRateLimit [] 4 10 1).count < 1) ∧
      (checkRecipientRateLimit [] 4 "e" 10 1).count ≤
        (checkRecipientRateLimit ([] ++ [wOp]) 4 "e" 10 1).count ∧
      (checkActorRateLimit [] 4 "a" 10 1).count ≤
        (checkActorRateLimit ([] ++ [wOp]) 4 "a" 10 1).count ∧
      (checkGlobalRateLimit [] 4 10 1).count ≤
        (checkGlobalRateLimit ([] ++ [wOp]) 4 10 1).count) :=
  ⟨rfl, rateLimit_strict_and_monotone [] 4 "e" "a" 10 1 wOp rfl⟩

/-- Two successful operations for `"e"` at timestamps 2 and 3 (log in creation
order), used to exhibit the effect of a failed operation on a check. -/
def c3SuccessLog : List EmailOp :=
  [⟨"transactional", "e", none, 2, true⟩, ⟨"transactional", "e", none, 3, true⟩]

/-- A failed operation for `"e"` at timestamp 1, logged after the two above. -/
def c3FailedOp : EmailOp := ⟨"transactional", "e", none, 1, false⟩

/-- C3 counterexample: with `maxEmails = 1`, the log of two successful
operations yields `count = 2`, but appending one failed operation changes the
check result: the failed operation occupies one of the `maxEmails + 1` fetched
index slots (it sorts first), so the returned count drops to 1.  The same
input also shows the returned count differing from the number of successful
matching in-window operations (2). -/
theorem c3_failed_op_changes_result :
    c3FailedOp.success = false ∧
    checkRecipientRateLimit (c3SuccessLog ++ [c3FailedOp]) 4 "e" 10 1 ≠
      checkRecipientRateLimit c3SuccessLog 4 "e" 10 1 ∧
    (checkRecipientRateLimit (c3SuccessLog ++ [c3FailedOp]) 4 "e" 10 1).count ≠
      ((c3SuccessLog ++ [c3FailedOp]).filter
        (fun op => op.success && (op.email == "e" && decide ((4 : Int) - 10 ≤ op.timestamp)))).length := by
  decide

/-- C3 amended: each check's count counts only successful operations that
match the key and lie in the window, among the at most `maxEmails + 1`
index-ordered records read; provided the full matching range fits in that
read budget, the count is exactly the number of successful matching in-window
operations and appending a failed operation changes no check's result. -/
theorem failed_ops_consume_no_quota (log : List EmailOp) (f : EmailOp) (now : Int)
    (e a : String) (W : Int) (m : Nat) (hf : f.success = false) :
    ((emailIndexRange (log ++ [f]) e (now - W)).length ≤ m + 1 →
      checkRecipientRateLimit (log ++ [f]) now e W m = checkRecipientRateLimit log now e W m ∧
      (checkRecipientRateLimit (log ++ [f]) now e W m).count =
        ((log ++ [f]).filter
          (fun op => op.success && (op.email == e && decide (now - W ≤ op.timestamp)))).length) ∧
    ((actorIndexRange (log ++ [f]) a (now - W)).length ≤ m + 1 →
      checkActorRateLimit (log ++ [f]) now a W m = checkActorRateLimit log now a W m ∧
      (checkActorRateLimit (log ++ [f]) now a W m).count =
        ((log ++ [f]).filter
          (fun op => op.success && (op.actorId == some a && decide (now - W ≤ op.timestamp)))).length) ∧
    ((timestampIndexRange (log ++ [f]) (now - W)).length ≤ m + 1 →
      checkGlobalRateLimit (log ++ [f]) now W m = checkGlobalRateLimit log now W m ∧
      (checkGlobalRateLimit (log ++ [f]) now W m).count =
        ((log ++ [f]).filter
          (fun op => op.success && decide (now - W ≤ op.timestamp))).length) := by
  refine ⟨?_, ?_, ?_⟩
  · intro hlen
    rw [emailIndexRange_length] at hlen
    have hrec := recent_append_failed
      (fun op => op.email == e && decide (now - W ≤ op.timestamp)) log f hf (m + 1) hlen
    refine ⟨?_, ?_⟩
    · simp only [checkRecipientRateLimit, emailIndexRange]
      simp only [hrec]
    · have hlen2 : (sortByTs ((log ++ [f]).filter
          (fun op => op.email == e && decide (now - W ≤ op.timestamp)))).length ≤ m + 1 := by
        rw [(sortByTs_perm _).length_eq]; exact hlen
      have hcount : (checkRecipientRateLimit (log ++ [f]) now e W m).count =
          (((sortByTs ((log ++ [f]).filter
            (fun op => op.email == e && decide (now - W ≤ op.timestamp)))).take (m + 1)).filter
              (fun op => op.success)).length := rfl
      rw [hcount, List.take_of_length_le hlen2, ← List.countP_eq_length_filter,
        (sortByTs_perm _).countP_eq, List.countP_filter, List.countP_eq_length_filter]
  · intro hlen
    rw [actorIndexRange_length] at hlen
    have hrec := recent_append_failed
      (fun op => op.actorId == some a && decide (now - W ≤ op.timestamp)) log f hf (m + 1) hlen
    refine ⟨?_, ?_⟩
    · simp only [checkActorRateLimit, actorIndexRange]
      simp only [hrec]
    · have hlen2 : (sortByTs ((log ++ [f]).filter
          (fun op => op.actorId == some a && decide (now - W ≤ op.timestamp)))).length ≤ m + 1 := by
        rw [(sortByTs_perm _).length_eq]; exact hlen
      have hcount : (checkActorRateLimit (log ++ [f]) now a W m).count =
          (((sortByTs ((log ++ [f]).filter
            (fun op => op.actorId == some a && decide (now - W ≤ op.timestamp)))).take (m + 1)).filter
              (fun op => op.success)).length := rfl
      rw [hcount, List.take_of_length_le hlen2, ← List.countP_eq_length_filter,
        (sortByTs_perm _).countP_eq, List.countP_filter, List.countP_eq_length_filter]
  · intro hlen
    rw [timestampIndexRange_length] at hlen
    have hrec := recent_append_failed
      (fun op => decide (now - W ≤ op.timestamp)) log f hf (m + 1) hlen
    refine ⟨?_, ?_⟩
    · simp only [checkGlobalRateLimit, timestampIndexRange]
      simp only [hrec]
    · have hlen2 : (sortByTs ((log ++ [f]).filter
          (fun op => decide (now - W ≤ op.timestamp)))).length ≤ m + 1 := by
        rw [(sortByTs_perm _).length_eq]; exact hlen
      have hcount : (checkGlobalRateLimit (log ++ [f]) now W m).count =
          (((sortByTs ((log ++ [f]).filter
            (fun op => decide (now - W ≤ op.timestamp)))).take (m + 1)).filter
              (fun op => op.success)).length := rfl
      rw [hcount, List.take_of_length_le hlen2, ← List.countP_eq_length_filter,
        (sortByTs_perm _).countP_eq, List.countP_filter, List.countP_eq_length_filter]

theorem failed_ops_consume_no_quota_witness :
    c3FailedOp.success = false ∧
    (checkRecipientRateLimit (c3SuccessLog ++ [c3FailedOp]) 4 "e" 10 5 =
        checkRecipientRateLimit c3SuccessLog 4 "e" 10 5 ∧
      (checkRecipientRateLimit (c3SuccessLog ++ [c3FailedOp]) 4 "e" 10 5).count =
        ((c3SuccessLog ++ [c3FailedOp]).filter
          (fun op => op.success && (op.email == "e" && decide ((4 : Int) - 10 ≤ op.timestamp)))).length) ∧
    (checkActorRateLimit (c3SuccessLog ++ [c3FailedOp]) 4 "a" 10 5 =
        checkActorRateLimit c3SuccessLog 4 "a" 10 5 ∧
      (checkActorRateLimit (c3SuccessLog ++ [c3FailedOp]) 4 "a" 10 5).count =
        ((c3SuccessLog ++ [c3FailedOp]).filter
          (fun op => op.success && (op.actorId == some "a" && decide ((4 : Int) - 10 ≤ op.timestamp)))).length) ∧
    (checkGlobalRateLimit (c3SuccessLog ++ [c3FailedOp]) 4 10 5 =
        checkGlobalRateLimit c3SuccessLog 4 10 5 ∧
      (checkGlobalRateLimit (c3SuccessLog ++ [c3FailedOp]) 4 10 5).count =
        ((c3SuccessLog ++ [c3FailedOp]).filter
          (fun op => op.success && decide ((4 : Int) - 10 ≤ op.timestamp))).length) :=
  ⟨rfl,
    (failed_ops_consume_no_quota c3SuccessLog c3FailedOp 4 "e" "a" 10 5 rfl).1 (by decide),
    (failed_ops_consume_no_quota c3SuccessLog c3FailedOp 4 "e" "a" 10 5 rfl).2.1 (by decide),
    (failed_ops_consume_no_quota c3SuccessLog c3FailedOp 4 "e" "a" 10 5 rfl).2.2 (by decide)⟩

/-- The twelve successful operations of the C4 scenario: recipient
`exceeded@example.com`, timestamps `now, now - 1s, …, now - 11s` with
`now = 10000000`, inserted oldest first. -/
def c4op (i : Nat) : EmailOp :=
  ⟨"transactional", "exceeded@example.com", none, 10000000 - 1000 * (i : Int), true⟩

def c4log : List EmailOp := (List.range 12).reverse.map c4op

/-- C4 counterexample: the query fetches at most `maxEmails + 1 = 11` index
records, so the scenario's check does not return `count = 12` (nor, a
fortiori, the full record the claim demands). -/
theorem c4_scenario_count_not_twelve :
    checkRecipientRateLimit c4log 10000000 "exceeded@example.com" 3600000 10 ≠
      { allowed := false, count := 12, limit := 10, timeWindowMs := 3600000,
        retryAfter := some 3589000 } := by
  decide

/-- C4 amended: the scenario returns `allowed = false`, `count = 11` (the
`maxEmails + 1` read budget truncates the 12 matching records to the oldest
11), `limit = 10`, and `retryAfter = 3589000` ms — the time until the oldest
of the 12 operations (timestamp `now - 11s`) falls outside the hour window. -/
theorem c4_scenario_result :
    checkRecipientRateLimit c4log 10000000 "exceeded@example.com" 3600000 10 =
      { allowed := false, count := 11, limit := 10, timeWindowMs := 3600000,
        retryAfter := some 3589000 } := by
  decide

/-- A counting fold over operations that all fail the key guard is inert. -/
theorem bumpBy_none (key : EmailOp → Option String) (l : List EmailOp)
    (h : ∀ op ∈ l, key op = none) : ∀ acc, l.foldl (bumpBy key) acc = acc := by
  induction l with
  | nil => intro acc; rfl
  | cons op t ih =>
      intro acc
      rw [List.foldl_cons, bumpBy, h op (List.mem_cons_self op t)]
      exact ih (fun o ho => h o (List.mem_cons_of_mem op ho)) acc

/-- C7 amended: a recipient other than the sentinel with exactly
`maxEmailsPerRecipient` in-window operations never appears in
`detectRecipientSpam` output; and provided the window holds at most
`MAX_SPAM_DETECTION_LIMIT` operations (the detector's read cap), a non-empty
such recipient with `maxEmailsPerRecipient + 1` in-window operations appears
with count `maxEmailsPerRecipient + 1`. -/
theorem recipientSpam_threshold (log : List EmailOp) (now : Int)
    (W? : Option Int) (max? : Option Nat) (e : String) (he : e ≠ "audience") :
    ((log.filter (fun op => op.email == e &&
        decide (now - W?.getD 3600000 ≤ op.timestamp))).length = max?.getD 10 →
      ∀ rec ∈ detectRecipientSpam log now W? max?, rec.email ≠ e) ∧
    ((log.filter (fun op => decide (now - W?.getD 3600000 ≤ op.timestamp))).length ≤
        MAX_SPAM_DETECTION_LIMIT →
      e ≠ "" →
      (log.filter (fun op => op.email == e &&
        decide (now - W?.getD 3600000 ≤ op.timestamp))).length = max?.getD 10 + 1 →
      (⟨e, max?.getD 10 + 1, W?.getD 3600000⟩ : RecipientSpamEntry) ∈
        detectRecipientSpam log now W? max?) := by
  have hdef : detectRecipientSpam log now W? max? =
      (((timestampIndexRange log (now - W?.getD 3600000)).take
          MAX_SPAM_DETECTION_LIMIT).foldl (bumpBy emailKey) []).filterMap
        (fun kc => if max?.getD 10 < kc.2 then
          some ⟨kc.1, kc.2, W?.getD 3600000⟩ else none) := rfl
  constructor
  · intro hexact rec hrec heq
    rw [hdef, List.mem_filterMap] at hrec
    obtain ⟨kc, hkc, hsome⟩ := hrec
    by_cases hlt : max?.getD 10 < kc.2
    · rw [if_pos hlt] at hsome
      obtain ⟨_, hc⟩ := bumpBy_mem emailKey _ kc.1 kc.2 hkc
      have hk1 : kc.1 = e := by
        have := Option.some.inj hsome
        rw [← this] at heq
        exact heq
      have himp : ∀ op ∈ (timestampIndexRange log (now - W?.getD 3600000)).take
          MAX_SPAM_DETECTION_LIMIT, (emailKey op == some e) = true →
            (op.email == e) = true := by
        intro op _ h
        rw [emailKey] at h
        by_cases hg : op.email ≠ "" ∧ op.email ≠ "audience"
        · rw [if_pos hg] at h
          simpa [beq_iff_eq] using h
        · rw [if_neg hg] at h
          simp at h
      have hbound : kc.2 ≤ max?.getD 10 := by
        rw [hc, hk1]
        calc ((timestampIndexRange log (now - W?.getD 3600000)).take
                MAX_SPAM_DETECTION_LIMIT).countP (fun op => emailKey op == some e)
            ≤ ((timestampIndexRange log (now - W?.getD 3600000)).take
                MAX_SPAM_DETECTION_LIMIT).countP (fun op => op.email == e) :=
              List.countP_mono_left himp
          _ ≤ (timestampIndexRange log (now - W?.getD 3600000)).countP
                (fun op => op.email == e) := countP_take_le _ _ _
          _ = (log.filter (fun op =>
                decide (now - W?.getD 3600000 ≤ op.timestamp))).countP
                (fun op => op.email == e) := (sortByTs_perm _).countP_eq _
          _ = log.countP (fun op => op.email == e &&
                decide (now - W?.getD 3600000 ≤ op.timestamp)) := List.countP_filter _ _ _
          _ = (log.filter (fun op => op.email == e &&
                decide (now - W?.getD 3600000 ≤ op.timestamp))).length :=
              List.countP_eq_length_filter _ _
          _ = max?.getD 10 := hexact
      omega
    · rw [if_neg hlt] at hsome
      exact absurd hsome (by simp)
  · intro hcap he0 hcount
    have hcap' : (timestampIndexRange log (now - W?.getD 3600000)).length ≤
        MAX_SPAM_DETECTION_LIMIT := by
      rw [timestampIndexRange_length]; exact hcap
    have htake : (timestampIndexRange log (now - W?.getD 3600000)).take
        MAX_SPAM_DETECTION_LIMIT = timestampIndexRange log (now - W?.getD 3600000) :=
      List.take_of_length_le hcap'
    have hcnt : ((timestampIndexRange log (now - W?.getD 3600000)).take
        MAX_SPAM_DETECTION_LIMIT).countP (fun op => emailKey op == some e) =
          max?.getD 10 + 1 := by
      rw [htake]
      calc (timestampIndexRange log (now - W?.getD 3600000)).countP
              (fun op => emailKey op == some e)
          = (timestampIndexRange log (now - W?.getD 3600000)).countP
              (fun op => op.email == e) :=
            List.countP_congr (fun op _ => by rw [emailKey_beq e he0 he op])
        _ = (log.filter (fun op =>
              decide (now - W?.getD 3600000 ≤ op.timestamp))).countP
              (fun op => op.email == e) := (sortByTs_perm _).countP_eq _
        _ = log.countP (fun op => op.email == e &&
              decide (now - W?.getD 3600000 ≤ op.timestamp)) := List.countP_filter _ _ _
        _ = (log.filter (fun op => op.email == e &&
              decide (now - W?.getD 3600000 ≤ op.timestamp))).length :=
            List.countP_eq_length_filter _ _
        _ = max?.getD 10 + 1 := hcount
    have hmem := bumpBy_mem_of emailKey
      ((timestampIndexRange log (now - W?.getD 3600000)).take MAX_SPAM_DETECTION_LIMIT)
      e (by rw [hcnt]; omega)
    rw [hcnt] at hmem
    rw [hdef, List.mem_filterMap]
    exact ⟨(e, max?.getD 10 + 1), hmem, by rw [if_pos (by omega)]⟩

/-- Filler operations addressed to the sentinel recipient, timestamps 1…8000. -/
def fillerOp (i : Nat) : EmailOp := ⟨"transactional", "audience", none, (i : Int) + 1, true⟩

/-- Eleven operations to recipient `"s"`, timestamps 8001…8011, logged after
the fillers. -/
def spamOp (i : Nat) : EmailOp := ⟨"transactional", "s", none, 8001 + (i : Int), true⟩

/-- 8011 in-window operations: the read cap keeps only the 8000 oldest. -/
def c7BigLog : List EmailOp :=
  ((List.range 8000).map fillerOp) ++ ((List.range 11).map spamOp)

/-- Eleven operations with an empty (falsy) recipient string. -/
def c7EmptyLog : List EmailOp :=
  (List.range 11).map (fun i => ⟨"transactional", "", none, (i : Int) + 1, true⟩)

theorem c7BigLog_sorted : tsSorted c7BigLog := by
  rw [c7BigLog]
  apply List.pairwise_append.mpr
  refine ⟨?_, ?_, ?_⟩
  · exact (List.pairwise_lt_range 8000).map fillerOp
      (fun i j hij => by simp only [fillerOp]; omega)
  · exact (List.pairwise_lt_range 11).map spamOp
      (fun i j hij => by simp only [spamOp]; omega)
  · intro x hx y hy
    obtain ⟨i, hi, rfl⟩ := List.mem_map.mp hx
    obtain ⟨j, hj, rfl⟩ := List.mem_map.mp hy
    rw [List.mem_range] at hi hj
    simp only [fillerOp, spamOp]
    omega

/-- C7 counterexample: with 8000 older in-window filler operations, eleven
in-window operations to `"s"` (one more than the default threshold 10) are
truncated away by the read cap and `"s"` is not reported; and eleven
operations with the empty (falsy) recipient string are never reported either. -/
theorem c7_beyond_cap_not_reported :
    (c7BigLog.filter (fun op => op.email == "s" &&
        decide ((3600000 : Int) - 3600000 ≤ op.timestamp))).length = 11 ∧
    detectRecipientSpam c7BigLog 3600000 none none = [] ∧
    (c7EmptyLog.filter (fun op => op.email == "" &&
        decide ((3600000 : Int) - 3600000 ≤ op.timestamp))).length = 11 ∧
    detectRecipientSpam c7EmptyLog 3600000 none none = [] := by
  have hfill : ∀ op ∈ (List.range 8000).map fillerOp, emailKey op = none := by
    intro op hop
    obtain ⟨i, _, rfl⟩ := List.mem_map.mp hop
    simp [emailKey, fillerOp]
  have hwin : c7BigLog.filter
      (fun op => decide ((3600000 : Int) - 3600000 ≤ op.timestamp)) = c7BigLog := by
    apply List.filter_eq_self.mpr
    intro op hop
    rw [c7BigLog] at hop
    rcases List.mem_append.mp hop with h | h
    · obtain ⟨i, _, rfl⟩ := List.mem_map.mp h
      simp only [fillerOp, decide_eq_true_iff]
      omega
    · obtain ⟨i, _, rfl⟩ := List.mem_map.mp h
      simp only [spamOp, decide_eq_true_iff]
      omega
  refine ⟨?_, ?_, by decide, by decide⟩
  · rw [c7BigLog, List.filter_append]
    have h1 : ((List.range 8000).map fillerOp).filter (fun op => op.email == "s" &&
        decide ((3600000 : Int) - 3600000 ≤ op.timestamp)) = [] := by
      apply List.filter_eq_nil_iff.mpr
      intro op hop
      obtain ⟨i, _, rfl⟩ := List.mem_map.mp hop
      simp [fillerOp]
    have h2 : ((List.range 11).map spamOp).filter (fun op => op.email == "s" &&
        decide ((3600000 : Int) - 3600000 ≤ op.timestamp)) =
          (List.range 11).map spamOp := by
      apply List.filter_eq_self.mpr
      intro op hop
      obtain ⟨i, _, rfl⟩ := List.mem_map.mp hop
      simp only [spamOp, Bool.and_eq_true, decide_eq_true_iff]
      exact ⟨by decide, by omega⟩
    rw [h1, h2]
    simp
  · have hrange : timestampIndexRange c7BigLog (3600000 - 3600000) = c7BigLog := by
      rw [timestampIndexRange, hwin, sortByTs_of_sorted c7BigLog_sorted]
    have hdef : detectRecipientSpam c7BigLog 3600000 none none =
        (((timestampIndexRange c7BigLog (3600000 - 3600000)).take
            MAX_SPAM_DETECTION_LIMIT).foldl (bumpBy emailKey) []).filterMap
          (fun kc => if 10 < kc.2 then
            some ⟨kc.1, kc.2, 3600000⟩ else none) := rfl
    rw [hdef, hrange]
    have htake : c7BigLog.take MAX_SPAM_DETECTION_LIMIT =
        (List.range 8000).map fillerOp := by
      rw [c7BigLog]
      have : MAX_SPAM_DETECTION_LIMIT = ((List.range 8000).map fillerOp).length := by
        simp [MAX_SPAM_DETECTION_LIMIT]
      rw [this, List.take_left]
    rw [htake, bumpBy_none emailKey _ hfill []]
    rfl

/-- Three operations: two to `"x"`, one to `"y"`, all inside a 10 ms window. -/
def c7WitLog : List EmailOp :=
  [⟨"transactional", "x", none, 1, true⟩, ⟨"transactional", "x", none, 2, true⟩,
    ⟨"transactional", "y", none, 3, true⟩]

theorem recipientSpam_threshold_witness :
    ((c7WitLog.filter (fun op => op.email == "y" &&
        decide ((5 : Int) - 10 ≤ op.timestamp))).length = 1 ∧
      ∀ rec ∈ detectRecipientSpam c7WitLog 5 (some 10) (some 1), rec.email ≠ "y") ∧
    (⟨"x", 2, 10⟩ : RecipientSpamEntry) ∈ detectRecipientSpam c7WitLog 5 (some 10) (some 1) :=
  ⟨⟨by decide, (recipientSpam_threshold c7WitLog 5 (some 10) (some 1) "y"
      (by decide)).1 (by decide)⟩,
    (recipientSpam_threshold c7WitLog 5 (some 10) (some 1) "x" (by decide)).2
      (by decide) (by decide) (by decide)⟩

/-- The three operations of the C9 scenario: a `transactional` success, an
`event` success, and a `transactional` failure, to three distinct recipients,
with no actor ids. -/
def c9Log : List EmailOp :=
  [⟨"transactional", "a@x.com", none, 1, true⟩,
    ⟨"event", "b@x.com", none, 2, true⟩,
    ⟨"transactional", "c@x.com", none, 3, false⟩]

/-- One in-window successful operation whose recipient email and actor id are
both the empty string (and so distinct from the `"audience"` sentinel). -/
def c9EmptyLog : List EmailOp := [⟨"transactional", "", some "", 1, true⟩]

/-- C9 counterexample: the truthiness guards `if (op.email && op.email !==
"audience")` and `if (op.actorId)` drop empty-string keys, not only the
sentinel.  On a log whose single in-window operation carries the empty-string
email and the empty-string actor id, `getEmailStats` returns
`uniqueRecipients = 0` and `uniqueActors = 0`, although the log holds one
distinct non-sentinel email and one distinct actor id — so counting "distinct
emails excluding the sentinel" and "distinct actorIds" misdescribes the
code. -/
theorem c9_empty_string_keys_not_counted :
    (getEmailStats c9EmptyLog 5 (some 10)).uniqueRecipients = 0 ∧
    (getEmailStats c9EmptyLog 5 (some 10)).uniqueActors = 0 ∧
    ((c9EmptyLog.filter (fun op => op.email != "audience" &&
        decide ((5 : Int) - 10 ≤ op.timestamp))).map (fun op => op.email)).dedup.length = 1 ∧
    ((c9EmptyLog.filter (fun op =>
        decide ((5 : Int) - 10 ≤ op.timestamp))).filterMap
      (fun op => op.actorId)).dedup.length = 1 := by
  decide

/-- C9 amended: `getEmailStats` reports the number of in-window operations
read, the success/failure partition, the per-type counts, the distinct
recipients admitted by the truthiness guard (excluding the empty string as
well as the `"audience"` sentinel), and the distinct non-empty actor ids; in
particular the concrete three-operation scenario yields
`{totalOperations := 3, successfulOperations := 2, failedOperations := 1,
operationsByType := {transactional ↦ 2, event ↦ 1}, uniqueRecipients := 3,
uniqueActors := 0}`. -/
theorem email_stats_correct (log : List EmailOp) (now : Int) (W? : Option Int) :
    (getEmailStats log now W?).totalOperations =
      ((timestampIndexRange log (now - W?.getD 86400000)).take
        MAX_SPAM_DETECTION_LIMIT).length ∧
    (getEmailStats log now W?).successfulOperations =
      ((timestampIndexRange log (now - W?.getD 86400000)).take
        MAX_SPAM_DETECTION_LIMIT).countP (fun op => op.success) ∧
    (getEmailStats log now W?).failedOperations =
      ((timestampIndexRange log (now - W?.getD 86400000)).take
        MAX_SPAM_DETECTION_LIMIT).countP (fun op => !op.success) ∧
    (getEmailStats log now W?).successfulOperations +
        (getEmailStats log now W?).failedOperations =
      (getEmailStats log now W?).totalOperations ∧
    (∀ t : String, (mapGet (getEmailStats log now W?).operationsByType t).getD 0 =
      ((timestampIndexRange log (now - W?.getD 86400000)).take
        MAX_SPAM_DETECTION_LIMIT).countP (fun op => op.operationType == t)) ∧
    (getEmailStats log now W?).uniqueRecipients =
      (((timestampIndexRange log (now - W?.getD 86400000)).take
        MAX_SPAM_DETECTION_LIMIT).filterMap emailKey).dedup.length ∧
    (getEmailStats log now W?).uniqueActors =
      (((timestampIndexRange log (now - W?.getD 86400000)).take
        MAX_SPAM_DETECTION_LIMIT).filterMap actorKey).dedup.length ∧
    getEmailStats c9Log 1000000 (some 3600000) =
      ⟨3, 2, 1, [("transactional", 2), ("event", 1)], 3, 0⟩ := by
  refine ⟨rfl, (List.countP_eq_length_filter _ _).symm,
    (List.countP_eq_length_filter _ _).symm, ?_, ?_, ?_, ?_, by decide⟩
  · show (((timestampIndexRange log (now - W?.getD 86400000)).take
        MAX_SPAM_DETECTION_LIMIT).filter (fun op => op.success)).length +
      (((timestampIndexRange log (now - W?.getD 86400000)).take
        MAX_SPAM_DETECTION_LIMIT).filter (fun op => !op.success)).length =
      ((timestampIndexRange log (now - W?.getD 86400000)).take
        MAX_SPAM_DETECTION_LIMIT).length
    rw [← List.countP_eq_length_filter, ← List.countP_eq_length_filter]
    exact countP_add_countP_not _ _
  · intro t
    have hb := bumpBy_get (fun op => some op.operationType)
      ((timestampIndexRange log (now - W?.getD 86400000)).take
        MAX_SPAM_DETECTION_LIMIT) [] t
    simp only [mapGet, Option.getD_none, Nat.zero_add] at hb
    exact hb
  · exact setFold_length emailKey _
  · exact setFold_length actorKey _

/-! ### Rapid-fire pattern detection (C8) -/

theorem groupGet_groupAdd (m : List (String × List EmailOp)) (k0 : String)
    (op : EmailOp) (k : String) :
    groupGet (groupAdd m k0 op) k =
      if k = k0 then groupGet m k ++ [op] else groupGet m k := by
  induction m with
  | nil =>
      simp only [groupAdd, groupGet]
      by_cases h : k = k0
      · subst h; simp
      · rw [if_neg h, if_neg (by simp [beq_iff_eq]; exact fun hh => h hh.symm)]
  | cons e t ih =>
      simp only [groupAdd]
      by_cases h1 : e.1 = k0
      · rw [if_pos (beq_iff_eq.mpr h1)]
        show (if k0 == k then e.2 ++ [op] else groupGet t k) = _
        by_cases h2 : k = k0
        · subst h2
          rw [if_pos (by simp), if_pos rfl]
          show e.2 ++ [op] = (if e.1 == k then e.2 else groupGet t k) ++ [op]
          rw [if_pos (beq_iff_eq.mpr h1)]
        · rw [if_neg (by simp [beq_iff_eq]; exact fun hh => h2 hh.symm), if_neg h2]
          show groupGet t k = if e.1 == k then e.2 else groupGet t k
          rw [if_neg (by simp [beq_iff_eq]; rw [h1]; exact fun hh => h2 hh.symm)]
      · rw [if_neg (by simpa [beq_iff_eq] using h1)]
        show (if e.1 == k then e.2 else groupGet (groupAdd t k0 op) k) = _
        by_cases h2 : e.1 = k
        · have hk : k ≠ k0 := fun hh => h1 (h2.symm ▸ hh ▸ rfl)
          rw [if_pos (beq_iff_eq.mpr h2), if_neg hk]
          show e.2 = if e.1 == k then e.2 else groupGet t k
          rw [if_pos (beq_iff_eq.mpr h2)]
        · rw [if_neg (by simpa [beq_iff_eq] using h2), ih]
          by_cases h3 : k = k0
          · rw [if_pos h3, if_pos h3]
            show groupGet t k ++ [op] = (if e.1 == k then e.2 else groupGet t k) ++ [op]
            rw [if_neg (by simpa [beq_iff_eq] using h2)]
          · rw [if_neg h3, if_neg h3]
            show groupGet t k = if e.1 == k then e.2 else groupGet t k
            rw [if_neg (by simpa [beq_iff_eq] using h2)]

/-- The grouping fold collects, for every key, exactly the operations carrying
that key, in order. -/
theorem groupBy_get_fold (key : EmailOp → Option String) (l : List EmailOp) :
    ∀ (acc : List (String × List EmailOp)) (k : String),
      groupGet (l.foldl (fun m op =>
        match key op with
        | some k2 => groupAdd m k2 op
        | none => m) acc) k =
        groupGet acc k ++ l.filter (fun op => key op == some k) := by
  induction l with
  | nil => intro acc k; simp
  | cons op t ih =>
      intro acc k
      rw [List.foldl_cons]
      cases hk : key op with
      | none =>
          rw [ih, List.filter_cons_of_neg (by simp [hk])]
      | some k0 =>
          rw [ih, groupGet_groupAdd]
          by_cases h : k = k0
          · subst h
            rw [if_pos rfl, List.filter_cons_of_pos (by simp [hk])]
            simp
          · rw [if_neg h, List.filter_cons_of_neg
              (by simp [hk, beq_iff_eq]; exact fun hh => h hh.symm)]

theorem groupAdd_keys (m : List (String × List EmailOp)) (k : String) (op : EmailOp) :
    (groupAdd m k op).map Prod.fst =
      if k ∈ m.map Prod.fst then m.map Prod.fst else m.map Prod.fst ++ [k] := by
  induction m with
  | nil => simp [groupAdd]
  | cons e t ih =>
      simp only [groupAdd, List.map_cons]
      by_cases h1 : e.1 = k
      · rw [if_pos (beq_iff_eq.mpr h1), if_pos (by rw [h1]; exact List.mem_cons_self _ _)]
        simp [h1]
      · rw [if_neg (by simpa [beq_iff_eq] using h1)]
        simp only [List.map_cons]
        by_cases h2 : k ∈ t.map Prod.fst
        · rw [if_pos (List.mem_cons_of_mem _ h2)]
          rw [ih, if_pos h2]
        · rw [if_neg (by
            simp only [List.mem_cons, not_or]
            exact ⟨fun hh => h1 hh.symm, h2⟩)]
          rw [ih, if_neg h2, List.cons_append]

theorem groupBy_keys_nodup (key : EmailOp → Option String) (l : List EmailOp) :
    ∀ (acc : List (String × List EmailOp)), (acc.map Prod.fst).Nodup →
      ((l.foldl (fun m op =>
        match key op with
        | some k2 => groupAdd m k2 op
        | none => m) acc).map Prod.fst).Nodup := by
  induction l with
  | nil => intro acc h; exact h
  | cons op t ih =>
      intro acc h
      rw [List.foldl_cons]
      refine ih _ ?_
      cases hk : key op with
      | none => exact h
      | some k0 =>
          rw [groupAdd_keys]
          by_cases hm : k0 ∈ acc.map Prod.fst
          · rw [if_pos hm]; exact h
          · rw [if_neg hm]
            simp [List.nodup_append, h, hm]

/-- Every record built by the anchor loop on a group satisfies any property of
its key, count (at least `minE`), and window bounds. -/
theorem groupPatterns_shape (build : String → Nat → Int → Int → RapidFirePattern)
    (W : Int) (minE : Nat) (prop : String → RapidFirePattern → Prop)
    (hbuild : ∀ k c ws we, minE ≤ c → we = ws + W → prop k (build k c ws we))
    (g : String × List EmailOp) :
    ∀ rec ∈ groupPatterns build W minE g, prop g.1 rec := by
  intro rec hrec
  rw [groupPatterns, List.mem_filterMap] at hrec
  obtain ⟨op, hop, hsome⟩ := hrec
  simp only at hsome
  split at hsome
  · next hc =>
      have := Option.some.inj hsome
      rw [← this]
      exact hbuild _ _ _ _ hc rfl
  · exact absurd hsome (by simp)

/-- Extracting from the concatenated per-group outputs the records whose tag
field holds a given key recovers exactly that key's group output. -/
theorem flatten_filter_tag (build : String → Nat → Int → Int → RapidFirePattern)
    (W : Int) (minE : Nat) (tag : RapidFirePattern → Option String)
    (hbuild : ∀ k c ws we, tag (build k c ws we) = some k) :
    ∀ (gs : List (String × List EmailOp)), (gs.map Prod.fst).Nodup → ∀ (e : String),
      ((gs.map (groupPatterns build W minE)).flatten.filter
        (fun r => tag r == some e)) =
        groupPatterns build W minE (e, groupGet gs e) := by
  intro gs
  induction gs with
  | nil => intro _ e; rfl
  | cons g gs ih =>
      intro hnd e
      have hnd' : (g.1 :: gs.map Prod.fst).Nodup := by
        simpa only [List.map_cons] using hnd
      obtain ⟨hg, hnd2⟩ := List.nodup_cons.mp hnd'
      have htag : ∀ (g2 : String × List EmailOp),
          ∀ rec ∈ groupPatterns build W minE g2, tag rec = some g2.1 :=
        fun g2 => groupPatterns_shape build W minE (fun k r => tag r = some k)
          (fun k c ws we _ _ => hbuild k c ws we) g2
      simp only [List.map_cons, List.flatten_cons, List.filter_append]
      by_cases h : g.1 = e
      · have hhead : (groupPatterns build W minE g).filter (fun r => tag r == some e) =
            groupPatterns build W minE g := by
          apply List.filter_eq_self.mpr
          intro r hr
          rw [htag g r hr, h]
          simp
        have hrest : ((gs.map (groupPatterns build W minE)).flatten.filter
            (fun r => tag r == some e)) = [] := by
          apply List.filter_eq_nil_iff.mpr
          intro r hr
          rw [List.mem_flatten] at hr
          obtain ⟨l0, hl0, hrl⟩ := hr
          rw [List.mem_map] at hl0
          obtain ⟨g2, hg2, rfl⟩ := hl0
          have hne : g2.1 ≠ e := by
            intro hh
            apply hg
            have hm : g2.1 ∈ gs.map Prod.fst := List.mem_map_of_mem Prod.fst hg2
            rw [hh, ← h] at hm
            exact hm
          rw [htag g2 r hrl]
          simp [beq_iff_eq, hne]
        rw [hhead, hrest, List.append_nil]
        have hget : groupGet (g :: gs) e = g.2 := by
          show (if g.1 == e then g.2 else groupGet gs e) = g.2
          rw [if_pos (beq_iff_eq.mpr h)]
        rw [hget]
        obtain ⟨k, v⟩ := g
        simp only at h
        rw [h]
      · have hhead : (groupPatterns build W minE g).filter (fun r => tag r == some e) =
            [] := by
          apply List.filter_eq_nil_iff.mpr
          intro r hr
          rw [htag g r hr]
          simp [beq_iff_eq, h]
        have hget : groupGet (g :: gs) e = groupGet gs e := by
          show (if g.1 == e then g.2 else groupGet gs e) = groupGet gs e
          rw [if_neg (by simpa [beq_iff_eq] using h)]
        rw [hhead, hget, List.nil_append]
        exact ih hnd2 e

/-- The groups built by `groupBy` carry pairwise distinct keys. -/
theorem groupBy_nodup_keys (key : EmailOp → Option String) (l : List EmailOp) :
    ((groupBy key l).map Prod.fst).Nodup :=
  groupBy_keys_nodup key l [] (by simp)

/-- A grouping fold over operations that all fail the key guard is inert. -/
theorem groupBy_fold_none (key : EmailOp → Option String) (l : List EmailOp)
    (h : ∀ op ∈ l, key op = none) :
    ∀ (acc : List (String × List EmailOp)), l.foldl (fun m op =>
      match key op with
      | some k2 => groupAdd m k2 op
      | none => m) acc = acc := by
  induction l with
  | nil => intro acc; rfl
  | cons op t ih =>
      intro acc
      rw [List.foldl_cons, h op (List.mem_cons_self op t)]
      exact ih (fun o ho => h o (List.mem_cons_of_mem op ho)) acc

/-- C8 amended: provided the window holds at most `MAX_SPAM_DETECTION_LIMIT`
operations (the read cap), the rapid-fire records carrying a given non-empty
non-sentinel email are exactly the anchor records of that recipient's
in-window group (sorted ascending): one record per operation whose window
`[t, t + W]` holds at least `minEmailsInWindow` of the group's operations,
with that count and `firstTimestamp = t`, `lastTimestamp = t + W`; likewise
per actor id; and every emitted record has count at least the threshold and a
window of exactly `timeWindowMs`. -/
theorem rapidFire_anchors (log : List EmailOp) (now : Int) (W? : Option Int)
    (min? : Option Nat)
    (hcap : (log.filter (fun op =>
      decide (now - W?.getD 60000 ≤ op.timestamp))).length ≤ MAX_SPAM_DETECTION_LIMIT) :
    (∀ e : String, e ≠ "" → e ≠ "audience" →
      (detectRapidFirePatterns log now W? min?).filter (fun r => r.email == some e) =
        groupPatterns (fun k c ws we => ⟨some k, none, c, W?.getD 60000, ws, we⟩)
          (W?.getD 60000) (min?.getD 5)
          (e, emailIndexRange log e (now - W?.getD 60000))) ∧
    (∀ a : String, a ≠ "" →
      (detectRapidFirePatterns log now W? min?).filter (fun r => r.actorId == some a) =
        groupPatterns (fun k c ws we => ⟨none, some k, c, W?.getD 60000, ws, we⟩)
          (W?.getD 60000) (min?.getD 5)
          (a, actorIndexRange log a (now - W?.getD 60000))) ∧
    (∀ rec ∈ detectRapidFirePatterns log now W? min?,
      min?.getD 5 ≤ rec.count ∧
      rec.lastTimestamp = rec.firstTimestamp + W?.getD 60000 ∧
      rec.timeWindowMs = W?.getD 60000) := by
  have hcap' : (timestampIndexRange log (now - W?.getD 60000)).length ≤
      MAX_SPAM_DETECTION_LIMIT := by
    rw [timestampIndexRange_length]; exact hcap
  have htake : (timestampIndexRange log (now - W?.getD 60000)).take
      MAX_SPAM_DETECTION_LIMIT = timestampIndexRange log (now - W?.getD 60000) :=
    List.take_of_length_le hcap'
  have hsorted : sortByTs ((timestampIndexRange log (now - W?.getD 60000)).take
      MAX_SPAM_DETECTION_LIMIT) =
      sortByTs (log.filter (fun op => decide (now - W?.getD 60000 ≤ op.timestamp))) := by
    rw [htake, timestampIndexRange, sortByTs_of_sorted (sortByTs_sorted _)]
  have hdef : detectRapidFirePatterns log now W? min? =
      ((groupBy emailKey (sortByTs ((timestampIndexRange log
          (now - W?.getD 60000)).take MAX_SPAM_DETECTION_LIMIT))).map
        (groupPatterns (fun k c ws we => ⟨some k, none, c, W?.getD 60000, ws, we⟩)
          (W?.getD 60000) (min?.getD 5))).flatten ++
      ((groupBy actorKey (sortByTs ((timestampIndexRange log
          (now - W?.getD 60000)).take MAX_SPAM_DETECTION_LIMIT))).map
        (groupPatterns (fun k c ws we => ⟨none, some k, c, W?.getD 60000, ws, we⟩)
          (W?.getD 60000) (min?.getD 5))).flatten := rfl
  refine ⟨?_, ?_, ?_⟩
  · intro e he0 he
    rw [hdef, List.filter_append]
    have hAP : (((groupBy actorKey (sortByTs ((timestampIndexRange log
        (now - W?.getD 60000)).take MAX_SPAM_DETECTION_LIMIT))).map
          (groupPatterns (fun k c ws we => ⟨none, some k, c, W?.getD 60000, ws, we⟩)
            (W?.getD 60000) (min?.getD 5))).flatten.filter
          (fun r => r.email == some e)) = [] := by
      apply List.filter_eq_nil_iff.mpr
      intro r hr
      rw [List.mem_flatten] at hr
      obtain ⟨l0, hl0, hrl⟩ := hr
      rw [List.mem_map] at hl0
      obtain ⟨g2, _, rfl⟩ := hl0
      have hre : r.email = none :=
        groupPatterns_shape _ _ _ (fun _ r => r.email = none)
          (fun _ _ _ _ _ _ => rfl) g2 r hrl
      simp [hre]
    rw [flatten_filter_tag _ _ _ RapidFirePattern.email (fun _ _ _ _ => rfl) _
      (groupBy_nodup_keys emailKey _) e, hAP, List.append_nil]
    have hgrp : groupGet (groupBy emailKey (sortByTs ((timestampIndexRange log
        (now - W?.getD 60000)).take MAX_SPAM_DETECTION_LIMIT))) e =
        emailIndexRange log e (now - W?.getD 60000) := by
      rw [groupBy, groupBy_get_fold emailKey _ [] e]
      show (sortByTs ((timestampIndexRange log (now - W?.getD 60000)).take
        MAX_SPAM_DETECTION_LIMIT)).filter (fun op => emailKey op == some e) = _
      rw [hsorted, filter_sortByTs, List.filter_filter]
      rw [List.filter_congr (fun op _ => by rw [emailKey_beq e he0 he op])]
      rfl
    rw [hgrp]
  · intro a ha
    rw [hdef, List.filter_append]
    have hEP : (((groupBy emailKey (sortByTs ((timestampIndexRange log
        (now - W?.getD 60000)).take MAX_SPAM_DETECTION_LIMIT))).map
          (groupPatterns (fun k c ws we => ⟨some k, none, c, W?.getD 60000, ws, we⟩)
            (W?.getD 60000) (min?.getD 5))).flatten.filter
          (fun r => r.actorId == some a)) = [] := by
      apply List.filter_eq_nil_iff.mpr
      intro r hr
      rw [List.mem_flatten] at hr
      obtain ⟨l0, hl0, hrl⟩ := hr
      rw [List.mem_map] at hl0
      obtain ⟨g2, _, rfl⟩ := hl0
      have hra : r.actorId = none :=
        groupPatterns_shape _ _ _ (fun _ r => r.actorId = none)
          (fun _ _ _ _ _ _ => rfl) g2 r hrl
      simp [hra]
    rw [hEP, List.nil_append]
    rw [flatten_filter_tag _ _ _ RapidFirePattern.actorId (fun _ _ _ _ => rfl) _
      (groupBy_nodup_keys actorKey _) a]
    have hgrp : groupGet (groupBy actorKey (sortByTs ((timestampIndexRange log
        (now - W?.getD 60000)).take MAX_SPAM_DETECTION_LIMIT))) a =
        actorIndexRange log a (now - W?.getD 60000) := by
      rw [groupBy, groupBy_get_fold actorKey _ [] a]
      show (sortByTs ((timestampIndexRange log (now - W?.getD 60000)).take
        MAX_SPAM_DETECTION_LIMIT)).filter (fun op => actorKey op == some a) = _
      rw [hsorted, filter_sortByTs, List.filter_filter]
      rw [List.filter_congr (fun op _ => by rw [actorKey_beq a ha op])]
      rfl
    rw [hgrp]
  · intro rec hrec
    rw [hdef, List.mem_append] at hrec
    rcases hrec with hr | hr <;>
    · rw [List.mem_flatten] at hr
      obtain ⟨l0, hl0, hrl⟩ := hr
      rw [List.mem_map] at hl0
      obtain ⟨g2, _, rfl⟩ := hl0
      exact groupPatterns_shape _ _ _
        (fun _ r => min?.getD 5 ≤ r.count ∧
          r.lastTimestamp = r.firstTimestamp + W?.getD 60000 ∧
          r.timeWindowMs = W?.getD 60000)
        (fun _ _ _ _ hc hwe => ⟨hc, hwe, rfl⟩) g2 rec hrl

/-- 8006 in-window operations: 8000 sentinel fillers followed by six
operations to `"s"` — a qualifying burst that the read cap truncates away. -/
def c8BigLog : List EmailOp :=
  ((List.range 8000).map fillerOp) ++ ((List.range 6).map spamOp)

theorem c8BigLog_sorted : tsSorted c8BigLog := by
  rw [c8BigLog]
  apply List.pairwise_append.mpr
  refine ⟨?_, ?_, ?_⟩
  · exact (List.pairwise_lt_range 8000).map fillerOp
      (fun i j hij => by simp only [fillerOp]; omega)
  · exact (List.pairwise_lt_range 6).map spamOp
      (fun i j hij => by simp only [spamOp]; omega)
  · intro x hx y hy
    obtain ⟨i, hi, rfl⟩ := List.mem_map.mp hx
    obtain ⟨j, hj, rfl⟩ := List.mem_map.mp hy
    rw [List.mem_range] at hi hj
    simp only [fillerOp, spamOp]
    omega

/-- C8 counterexample: a burst of six in-window operations to `"s"` (within
one window, above the threshold 5) yields no pattern record, because 8000
older in-window fillers exhaust the read cap. -/
theorem c8_beyond_cap_not_reported :
    (c8BigLog.filter (fun op => op.email == "s" &&
        decide ((1000000 : Int) - 1000000 ≤ op.timestamp))).length = 6 ∧
    detectRapidFirePatterns c8BigLog 1000000 (some 1000000) (some 5) = [] := by
  constructor
  · rw [c8BigLog, List.filter_append]
    have h1 : ((List.range 8000).map fillerOp).filter (fun op => op.email == "s" &&
        decide ((1000000 : Int) - 1000000 ≤ op.timestamp)) = [] := by
      apply List.filter_eq_nil_iff.mpr
      intro op hop
      obtain ⟨i, _, rfl⟩ := List.mem_map.mp hop
      simp [fillerOp]
    have h2 : ((List.range 6).map spamOp).filter (fun op => op.email == "s" &&
        decide ((1000000 : Int) - 1000000 ≤ op.timestamp)) =
          (List.range 6).map spamOp := by
      apply List.filter_eq_self.mpr
      intro op hop
      obtain ⟨i, _, rfl⟩ := List.mem_map.mp hop
      simp only [spamOp, Bool.and_eq_true, decide_eq_true_iff]
      exact ⟨by decide, by omega⟩
    rw [h1, h2]
    simp
  · have hwin : c8BigLog.filter
        (fun op => decide ((1000000 : Int) - 1000000 ≤ op.timestamp)) = c8BigLog := by
      apply List.filter_eq_self.mpr
      intro op hop
      rw [c8BigLog] at hop
      rcases List.mem_append.mp hop with h | h
      · obtain ⟨i, _, rfl⟩ := List.mem_map.mp h
        simp only [fillerOp, decide_eq_true_iff]
        omega
      · obtain ⟨i, _, rfl⟩ := List.mem_map.mp h
        simp only [spamOp, decide_eq_true_iff]
        omega
    have hrange : timestampIndexRange c8BigLog (1000000 - 1000000) = c8BigLog := by
      rw [timestampIndexRange, hwin, sortByTs_of_sorted c8BigLog_sorted]
    have htake : c8BigLog.take MAX_SPAM_DETECTION_LIMIT =
        (List.range 8000).map fillerOp := by
      rw [c8BigLog]
      have hlen : MAX_SPAM_DETECTION_LIMIT = ((List.range 8000).map fillerOp).length := by
        simp [MAX_SPAM_DETECTION_LIMIT]
      rw [hlen, List.take_left]
    have hfillSorted : tsSorted ((List.range 8000).map fillerOp) :=
      (List.pairwise_lt_range 8000).map fillerOp
        (fun i j hij => by simp only [fillerOp]; omega)
    have hdef : detectRapidFirePatterns c8BigLog 1000000 (some 1000000) (some 5) =
        ((groupBy emailKey (sortByTs ((timestampIndexRange c8BigLog
            (1000000 - 1000000)).take MAX_SPAM_DETECTION_LIMIT))).map
          (groupPatterns (fun k c ws we => ⟨some k, none, c, 1000000, ws, we⟩)
            1000000 5)).flatten ++
        ((groupBy actorKey (sortByTs ((timestampIndexRange c8BigLog
            (1000000 - 1000000)).take MAX_SPAM_DETECTION_LIMIT))).map
          (groupPatterns (fun k c ws we => ⟨none, some k, c, 1000000, ws, we⟩)
            1000000 5)).flatten := rfl
    rw [hdef, hrange, htake, sortByTs_of_sorted hfillSorted]
    have hge : groupBy emailKey ((List.range 8000).map fillerOp) = [] := by
      rw [groupBy]
      apply groupBy_fold_none
      intro op hop
      obtain ⟨i, _, rfl⟩ := List.mem_map.mp hop
      simp [emailKey, fillerOp]
    have hga : groupBy actorKey ((List.range 8000).map fillerOp) = [] := by
      rw [groupBy]
      apply groupBy_fold_none
      intro op hop
      obtain ⟨i, _, rfl⟩ := List.mem_map.mp hop
      simp [actorKey, fillerOp]
    rw [hge, hga]
    rfl

/-- Five operations to `"x"` by actor `"u"` inside one window. -/
def c8WitLog : List EmailOp :=
  [⟨"transactional", "x", some "u", 1, true⟩, ⟨"transactional", "x", some "u", 2, true⟩,
    ⟨"transactional", "x", some "u", 3, true⟩, ⟨"transactional", "x", some "u", 4, true⟩,
    ⟨"transactional", "x", some "u", 5, true⟩]

theorem rapidFire_anchors_witness :
    (detectRapidFirePatterns c8WitLog 5 (some 10) (some 5)).filter
        (fun r => r.email == some "x") =
      groupPatterns (fun k c ws we => ⟨some k, none, c, 10, ws, we⟩) 10 5
        ("x", emailIndexRange c8WitLog "x" (5 - 10)) :=
  (rapidFire_anchors c8WitLog 5 (some 10) (some 5) (by decide)).1 "x"
    (by decide) (by decide)

/-! ### Contact store, namespace aggregate, counting and backfill -/

/-- A document of the `contacts` table (`contactsFields`): `subscribed` is
optional in the schema. -/
structure Contact where
  id : Nat
  email : String
  firstName : Option String
  lastName : Option String
  userId : Option String
  source : Option String
  subscribed : Option Bool
  userGroup : Option String
  loopsContactId : Option String
  createdAt : Int
  updatedAt : Int
deriving DecidableEq, Repr

/-- Modelled from the spec: the Namespace Counter (the external
`TableAggregate` component, not under `src/`) holds one item per inserted
contact, keyed by `(namespace, document id)` with namespace `doc.userGroup`
and null sort key (spec 4.1); its state is the list of items. -/
abbrev AggState := List (Option String × Nat)

/-- The aggregate item of a contact: namespace `doc.userGroup`, identity its
document id. -/
def contactKey (c : Contact) : Option String × Nat := (c.userGroup, c.id)

/-- Modelled from the spec: `insertIfDoesNotExist` — insert-if-absent
(spec 4.1 maintenance contract), wrapped by `aggregateInsert`. -/
def aggregateInsert (agg : AggState) (c : Contact) : AggState :=
  if contactKey c ∈ agg then agg else contactKey c :: agg

/-- Modelled from the spec: `deleteIfExists` — remove-if-present, wrapped by
`aggregateDelete`. -/
def aggregateDelete (agg : AggState) (c : Contact) : AggState :=
  agg.filter (fun x => x != contactKey c)

/-- Modelled from the spec: `replaceOrInsert` — move the item between
partitions when the userGroup changes, wrapped by `aggregateReplace`. -/
def aggregateReplace (agg : AggState) (oldDoc newDoc : Contact) : AggState :=
  let pruned := agg.filter (fun x => x != contactKey oldDoc)
  if contactKey newDoc ∈ pruned then pruned else contactKey newDoc :: pruned

/-- Modelled from the spec: `count` over one namespace, wrapped by
`aggregateCountByUserGroup`. -/
def aggregateCount (agg : AggState) (ns : Option String) : Nat :=
  (agg.filter (fun x => x.1 == ns)).length

/-- Modelled from the spec: `iterNamespaces` — every namespace present in the
aggregate, each once. -/
def iterNamespaces (agg : AggState) : List (Option String) :=
  (agg.map Prod.fst).dedup

/-- Source `aggregateCountTotal` from `src/component/aggregates.ts`: sum the
per-namespace counts over the iterated namespaces. -/
def aggregateCountTotal (agg : AggState) : Nat :=
  ((iterNamespaces agg).map (aggregateCount agg)).sum

/-- Modelled from the spec: `clear` with no namespace argument resets all
partitions (spec 4.1: resets one or all partitions). -/
def aggregateClear : AggState := []

/-- The mirrored database: contacts in creation order, the aggregate state,
and the id allocator. -/
structure DbState where
  contacts : List Contact
  agg : AggState
  nextId : Nat
deriving DecidableEq, Repr

/-- Arguments of the `storeContact` internal mutation. -/
structure StoreArgs where
  email : String
  firstName : Option String := none
  lastName : Option String := none
  userId : Option String := none
  source : Option String := none
  subscribed : Option Bool := none
  userGroup : Option String := none
  loopsContactId : Option String := none
deriving DecidableEq, Repr

/-- Source `storeContact` from `src/component/mutations.ts`: look the contact
up by email; patch it if present (a patch field given as `undefined` clears
the stored field, except `subscribed` which falls back to the stored value),
replacing its aggregate item when the userGroup changed; otherwise insert it
and add it to the aggregate. -/
def storeContact (s : DbState) (now : Int) (a : StoreArgs) : DbState :=
  match s.contacts.find? (fun c => c.email == a.email) with
  | some existing =>
      let updated : Contact :=
        { existing with
          firstName := a.firstName
          lastName := a.lastName
          userId := a.userId
          source := a.source
          subscribed := match a.subscribed with
            | some b => some b
            | none => existing.subscribed
          userGroup := a.userGroup
          loopsContactId := a.loopsContactId
          updatedAt := now }
      { contacts := s.contacts.map (fun c => if c.id == existing.id then updated else c)
        agg := if existing.userGroup ≠ updated.userGroup then
            aggregateReplace s.agg existing updated
          else s.agg
        nextId := s.nextId }
  | none =>
      let newDoc : Contact :=
        { id := s.nextId
          email := a.email
          firstName := a.firstName
          lastName := a.lastName
          userId := a.userId
          source := a.source
          subscribed := some (a.subscribed.getD true)
          userGroup := a.userGroup
          loopsContactId := a.loopsContactId
          createdAt := now
          updatedAt := now }
      { contacts := s.contacts ++ [newDoc]
        agg := aggregateInsert s.agg newDoc
        nextId := s.nextId + 1 }

/-- Source `removeContact` from `src/component/mutations.ts`: look up by
email; if present, delete the aggregate item first, then the document. -/
def removeContact (s : DbState) (email : String) : DbState :=
  match s.contacts.find? (fun c => c.email == email) with
  | some existing =>
      { contacts := s.contacts.filter (fun c => c.id != existing.id)
        agg := aggregateDelete s.agg existing
        nextId := s.nextId }
  | none => s

/-- A contact-store mutation: insert/update or delete. -/
inductive ContactOp where
  | store (now : Int) (args : StoreArgs)
  | remove (email : String)
deriving DecidableEq, Repr

def applyOp (s : DbState) : ContactOp → DbState
  | .store now args => storeContact s now args
  | .remove email => removeContact s email

def applyOps (s : DbState) (ops : List ContactOp) : DbState := ops.foldl applyOp s

/-- Cap on documents read when counting with filters. -/
def MAX_COUNT_LIMIT : Nat := 8000

/-- Arguments of `countContacts`. -/
structure CountArgs where
  userGroup : Option String := none
  source : Option String := none
  subscribed : Option Bool := none
deriving DecidableEq, Repr

/-- The in-memory filter `countContacts` applies after the indexed read. -/
def matchesFilter (args : CountArgs) (c : Contact) : Bool :=
  (match args.userGroup with
    | some g => c.userGroup == some g
    | none => true) &&
  (match args.source with
    | some src => c.source == some src
    | none => true) &&
  (match args.subscribed with
    | some b => c.subscribed == some b
    | none => true)

/-- Source `countContacts` from `src/component/queries.ts`: userGroup-only
filters (or none) route to the aggregate; otherwise one equality index is
read with a `MAX_COUNT_LIMIT` cap and the remaining predicates are applied in
memory.  An equality-constrained contact index returns documents in creation
order, so the index read is the filtered creation-ordered list. -/
def countContacts (s : DbState) (args : CountArgs) : Nat :=
  if args.source == none && args.subscribed == none then
    match args.userGroup with
    | none => aggregateCountTotal s.agg
    | some g => aggregateCount s.agg (some g)
  else
    let contacts : List Contact :=
      match args.userGroup with
      | some g => (s.contacts.filter (fun c => c.userGroup == some g)).take MAX_COUNT_LIMIT
      | none =>
          match args.source with
          | some src =>
              (s.contacts.filter (fun c => c.source == some src)).take MAX_COUNT_LIMIT
          | none =>
              match args.subscribed with
              | some b =>
                  (s.contacts.filter (fun c => c.subscribed == some b)).take MAX_COUNT_LIMIT
              | none => s.contacts.take MAX_COUNT_LIMIT
    (contacts.filter (matchesFilter args)).length

/-- The page size clamp `Math.min(Math.max(1, batchSize ?? 100), 500)`. -/
def backfillNumItems (batchSize? : Option Nat) : Nat :=
  min (max 1 (batchSize?.getD 100)) 500

/-- One call of `backfillContactAggregate` per step, driven to completion:
from `cursor` (contacts already processed; the Convex cursor is an opaque
position), read a page in ascending creation order, insert it into the
aggregate with insert-if-absent, and continue while pagination is not done.
The fuel bounds the number of calls and suffices whenever `numItems ≥ 1`. -/
def backfillLoop (contacts : List Contact) (numItems : Nat) :
    Nat → AggState → Nat → AggState
  | 0, agg, _ => agg
  | fuel + 1, agg, cursor =>
      let page := (contacts.drop cursor).take numItems
      let agg2 := page.foldl aggregateInsert agg
      if contacts.length ≤ cursor + page.length then agg2
      else backfillLoop contacts numItems fuel agg2 (cursor + page.length)

/-- Source `backfillContactAggregate` run to completion: clear on the first
call when requested, then page through all contacts ascending. -/
def runBackfill (contacts : List Contact) (agg : AggState) (batchSize? : Option Nat)
    (clear : Bool) : AggState :=
  let agg0 := if clear then aggregateClear else agg
  backfillLoop contacts (backfillNumItems batchSize?) (contacts.length + 1) agg0 0

/-- A full backfill of a database state (clear, then all pages). -/
def fullBackfill (s : DbState) (batchSize? : Option Nat) : DbState :=
  { s with agg := runBackfill s.contacts s.agg batchSize? true }

/-! ### The counting strategy (C5) -/

/-- Summing per-key counts over any duplicate-free list of keys covering all
elements recovers the length. -/
theorem sum_countP_over :
    ∀ (L : List (Option String)) (agg : AggState), L.Nodup → (∀ x ∈ agg, x.1 ∈ L) →
      (L.map (fun ns => agg.countP (fun x => x.1 == ns))).sum = agg.length := by
  intro L
  induction L with
  | nil =>
      intro agg _ hall
      have hagg : agg = [] := by
        cases agg with
        | nil => rfl
        | cons a t => exact absurd (hall a (List.mem_cons_self a t)) (by simp)
      simp [hagg]
  | cons x L ih =>
      intro agg hnd hall
      obtain ⟨hx, hnd2⟩ := List.nodup_cons.mp hnd
      rw [List.map_cons, List.sum_cons]
      have hsplit : agg.countP (fun e => e.1 == x) +
          (agg.filter (fun e => !(e.1 == x))).length = agg.length := by
        rw [← List.countP_eq_length_filter]
        exact countP_add_countP_not (fun e => e.1 == x) agg
      have hrest : ∀ ns ∈ L, agg.countP (fun e => e.1 == ns) =
          (agg.filter (fun e => !(e.1 == x))).countP (fun e => e.1 == ns) := by
        intro ns hns
        have hne : ns ≠ x := fun hh => hx (hh ▸ hns)
        rw [List.countP_filter]
        apply List.countP_congr
        intro e _
        by_cases h : e.1 = ns
        · simp [h, beq_iff_eq, hne]
        · simp [beq_iff_eq, h]
      have hmap : (L.map (fun ns => agg.countP (fun e => e.1 == ns))).sum =
          (L.map (fun ns => (agg.filter (fun e => !(e.1 == x))).countP
            (fun e => e.1 == ns))).sum := by
        congr 1
        exact List.map_congr_left hrest
      rw [hmap, ih _ hnd2 ?_]
      · omega
      · intro e he
        have hmem := List.mem_of_mem_filter he
        have hprop := List.of_mem_filter he
        rcases List.mem_cons.mp (hall e hmem) with h | h
        · exfalso
          rw [h] at hprop
          simp at hprop
        · exact h

/-- The namespace iterator visits every partition exactly once, so the summed
total equals the number of aggregate items. -/
theorem aggregateCountTotal_eq_length (agg : AggState) :
    aggregateCountTotal agg = agg.length := by
  rw [aggregateCountTotal, iterNamespaces]
  have hm : (agg.map Prod.fst).dedup.map (aggregateCount agg) =
      (agg.map Prod.fst).dedup.map (fun ns => agg.countP (fun x => x.1 == ns)) := by
    apply List.map_congr_left
    intro ns _
    rw [aggregateCount, ← List.countP_eq_length_filter]
  rw [hm]
  exact sum_countP_over _ agg (List.nodup_dedup _)
    (fun x hx => List.mem_dedup.mpr (List.mem_map_of_mem Prod.fst hx))

/-- The predicate of the one equality index read by the scan path of
`countContacts` (userGroup first, then source, then subscribed). -/
def indexPrefixPred (args : CountArgs) (c : Contact) : Bool :=
  match args.userGroup with
  | some g => c.userGroup == some g
  | none =>
      match args.source with
      | some src => c.source == some src
      | none =>
          match args.subscribed with
          | some b => c.subscribed == some b
          | none => true

/-- The capped scan-and-filter count is bounded by the cap, bounded by the
exact count, and exact whenever the index range fits under the cap. -/
theorem scan_count_props (l : List Contact) (pred mf : Contact → Bool)
    (himp : ∀ c, mf c = true → pred c = true) :
    (((l.filter pred).take MAX_COUNT_LIMIT).filter mf).length ≤ MAX_COUNT_LIMIT ∧
    (((l.filter pred).take MAX_COUNT_LIMIT).filter mf).length ≤ (l.filter mf).length ∧
    ((l.filter pred).length ≤ MAX_COUNT_LIMIT →
      (((l.filter pred).take MAX_COUNT_LIMIT).filter mf).length =
        (l.filter mf).length) := by
  have hff : (l.filter pred).filter mf = l.filter mf := by
    rw [List.filter_filter]
    apply List.filter_congr
    intro c _
    by_cases h : mf c = true
    · simp [h, himp c h]
    · simp [Bool.and_eq_true, h]
  refine ⟨?_, ?_, ?_⟩
  · calc (((l.filter pred).take MAX_COUNT_LIMIT).filter mf).length
        ≤ ((l.filter pred).take MAX_COUNT_LIMIT).length := List.length_filter_le _ _
      _ ≤ MAX_COUNT_LIMIT := List.length_take_le _ _
  · rw [← hff, ← List.countP_eq_length_filter, ← List.countP_eq_length_filter]
    exact countP_take_le mf (l.filter pred) MAX_COUNT_LIMIT
  · intro hcap
    rw [List.take_of_length_le hcap, hff]

/-- C5: filters constraining only userGroup (or nothing) are answered from
the namespace aggregate — the no-filter total sums all partitions (and equals
the number of aggregate items), a userGroup filter reads that partition's
count; filters touching source or subscribed are answered by one indexed read
capped at `MAX_COUNT_LIMIT` records with in-memory filtering, so the result
never exceeds the cap, never exceeds the exact count, and is exact whenever
at most `MAX_COUNT_LIMIT` records match the index prefix; the function is
total, so no input errors. -/
theorem countContacts_strategy (s : DbState) (args : CountArgs) (g : String) :
    (countContacts s ⟨none, none, none⟩ = aggregateCountTotal s.agg ∧
      aggregateCountTotal s.agg = s.agg.length ∧
      countContacts s ⟨some g, none, none⟩ = aggregateCount s.agg (some g)) ∧
    (args.source ≠ none ∨ args.subscribed ≠ none →
      countContacts s args ≤ MAX_COUNT_LIMIT ∧
      countContacts s args ≤ (s.contacts.filter (matchesFilter args)).length ∧
      ((s.contacts.filter (indexPrefixPred args)).length ≤ MAX_COUNT_LIMIT →
        countContacts s args = (s.contacts.filter (matchesFilter args)).length)) := by
  refine ⟨⟨rfl, aggregateCountTotal_eq_length s.agg, rfl⟩, ?_⟩
  intro hscan
  obtain ⟨ug, src, sub⟩ := args
  cases src with
  | some srcv =>
      cases ug with
      | some gv =>
          exact scan_count_props s.contacts (fun c => c.userGroup == some gv)
            (matchesFilter ⟨some gv, some srcv, sub⟩)
            (fun c h => by
              simp only [matchesFilter, Bool.and_eq_true] at h
              exact h.1.1)
      | none =>
          exact scan_count_props s.contacts (fun c => c.source == some srcv)
            (matchesFilter ⟨none, some srcv, sub⟩)
            (fun c h => by
              simp only [matchesFilter, Bool.and_eq_true] at h
              exact h.1.2)
  | none =>
      cases sub with
      | some bv =>
          cases ug with
          | some gv =>
              exact scan_count_props s.contacts (fun c => c.userGroup == some gv)
                (matchesFilter ⟨some gv, none, some bv⟩)
                (fun c h => by
                  simp only [matchesFilter, Bool.and_eq_true] at h
                  exact h.1.1)
          | none =>
              exact scan_count_props s.contacts (fun c => c.subscribed == some bv)
                (matchesFilter ⟨none, none, some bv⟩)
                (fun c h => by
                  simp only [matchesFilter, Bool.and_eq_true] at h
                  exact h.2)
      | none =>
          rcases hscan with h | h <;> exact absurd rfl h

/-- A two-contact store used to instantiate the counting theorems. -/
def c5WitState : DbState :=
  { contacts := [
      { id := 0, email := "a@x.com", firstName := none, lastName := none,
        userId := none, source := some "web", subscribed := some true,
        userGroup := none, loopsContactId := none, createdAt := 0, updatedAt := 0 },
      { id := 1, email := "b@x.com", firstName := none, lastName := none,
        userId := none, source := some "api", subscribed := some true,
        userGroup := some "g1", loopsContactId := none, createdAt := 1, updatedAt := 1 }],
    agg := [], nextId := 2 }

theorem countContacts_strategy_witness :
    ((some "web" : Option String) ≠ none ∨ (none : Option Bool) ≠ none) ∧
    (countContacts c5WitState ⟨none, some "web", none⟩ ≤ MAX_COUNT_LIMIT ∧
      countContacts c5WitState ⟨none, some "web", none⟩ ≤
        (c5WitState.contacts.filter (matchesFilter ⟨none, some "web", none⟩)).length ∧
      ((c5WitState.contacts.filter (indexPrefixPred ⟨none, some "web", none⟩)).length ≤
          MAX_COUNT_LIMIT →
        countContacts c5WitState ⟨none, some "web", none⟩ =
          (c5WitState.contacts.filter (matchesFilter ⟨none, some "web", none⟩)).length)) :=
  ⟨Or.inl (by decide),
    (countContacts_strategy c5WitState ⟨none, some "web", none⟩ "g1").2
      (Or.inl (by decide))⟩

/-! ### Backfill idempotence (C6) -/

theorem backfillNumItems_pos (batchSize? : Option Nat) :
    1 ≤ backfillNumItems batchSize? := by
  rw [backfillNumItems]
  omega

theorem aggregateInsert_mem {agg : AggState} {x : Option String × Nat} (c : Contact)
    (h : x ∈ agg) : x ∈ aggregateInsert agg c := by
  rw [aggregateInsert]
  by_cases hm : contactKey c ∈ agg
  · rw [if_pos hm]; exact h
  · rw [if_neg hm]; exact List.mem_cons_of_mem _ h

theorem aggregateInsert_self (agg : AggState) (c : Contact) :
    contactKey c ∈ aggregateInsert agg c := by
  rw [aggregateInsert]
  by_cases hm : contactKey c ∈ agg
  · rw [if_pos hm]; exact hm
  · rw [if_neg hm]; exact List.mem_cons_self _ _

theorem foldl_aggregateInsert_mem (l : List Contact) :
    ∀ (agg : AggState) (x : Option String × Nat), x ∈ agg →
      x ∈ l.foldl aggregateInsert agg := by
  induction l with
  | nil => intro agg x h; exact h
  | cons c t ih => intro agg x h; exact ih _ x (aggregateInsert_mem c h)

theorem foldl_aggregateInsert_key_mem (l : List Contact) :
    ∀ (agg : AggState) (c : Contact), c ∈ l →
      contactKey c ∈ l.foldl aggregateInsert agg := by
  induction l with
  | nil => intro agg c h; simp at h
  | cons d t ih =>
      intro agg c h
      rcases List.mem_cons.mp h with h | h
      · subst h
        exact foldl_aggregateInsert_mem t _ _ (aggregateInsert_self agg c)
      · exact ih _ c h

/-- An insert-if-absent fold over contacts already present is the identity. -/
theorem foldl_aggregateInsert_id (l : List Contact) :
    ∀ (agg : AggState), (∀ c ∈ l, contactKey c ∈ agg) →
      l.foldl aggregateInsert agg = agg := by
  induction l with
  | nil => intro agg _; rfl
  | cons c t ih =>
      intro agg h
      rw [List.foldl_cons, aggregateInsert, if_pos (h c (List.mem_cons_self c t))]
      exact ih agg (fun d hd => h d (List.mem_cons_of_mem c hd))

/-- Driven to completion with enough fuel, the paging loop inserts every
contact from the cursor on, in order. -/
theorem backfillLoop_eq_foldl (contacts : List Contact) (numItems : Nat)
    (hpos : 1 ≤ numItems) :
    ∀ (fuel cursor : Nat) (agg : AggState), contacts.length - cursor ≤ fuel →
      backfillLoop contacts numItems fuel agg cursor =
        (contacts.drop cursor).foldl aggregateInsert agg := by
  intro fuel
  induction fuel with
  | zero =>
      intro cursor agg h
      have hnil : contacts.drop cursor = [] := List.drop_eq_nil_of_le (by omega)
      rw [hnil]
      rfl
  | succ fuel ih =>
      intro cursor agg h
      have hunf : backfillLoop contacts numItems (fuel + 1) agg cursor =
          (if contacts.length ≤
              cursor + ((contacts.drop cursor).take numItems).length
           then ((contacts.drop cursor).take numItems).foldl aggregateInsert agg
           else backfillLoop contacts numItems fuel
             (((contacts.drop cursor).take numItems).foldl aggregateInsert agg)
             (cursor + ((contacts.drop cursor).take numItems).length)) := rfl
      rw [hunf]
      have hplen : ((contacts.drop cursor).take numItems).length =
          min numItems (contacts.length - cursor) := by
        rw [List.length_take, List.length_drop]
      by_cases hdone : contacts.length ≤
          cursor + ((contacts.drop cursor).take numItems).length
      · rw [if_pos hdone]
        have hfull : (contacts.drop cursor).take numItems = contacts.drop cursor := by
          apply List.take_of_length_le
          rw [List.length_drop]
          omega
        rw [hfull]
      · rw [if_neg hdone]
        have hlen : ((contacts.drop cursor).take numItems).length = numItems := by
          omega
        rw [ih _ _ (by omega), ← List.foldl_append]
        congr 1
        rw [hlen]
        rw [show contacts.drop (cursor + numItems) =
          (contacts.drop cursor).drop numItems from by rw [List.drop_drop, Nat.add_comm]]
        exact List.take_append_drop numItems (contacts.drop cursor)

theorem runBackfill_eq (contacts : List Contact) (agg : AggState)
    (batchSize? : Option Nat) (clear : Bool) :
    runBackfill contacts agg batchSize? clear =
      contacts.foldl aggregateInsert (if clear then aggregateClear else agg) := by
  rw [runBackfill,
    backfillLoop_eq_foldl contacts _ (backfillNumItems_pos batchSize?) _ 0 _ (by omega),
    List.drop_zero]

/-- C6: running `backfillContactAggregate` to completion twice over the same
unchanged contacts (the second run with `clear = false`) leaves every
partition count of the namespace aggregate unchanged — reinserting an
already-present contact via insert-if-absent never double-counts. -/
theorem backfill_idempotent (contacts : List Contact) (agg : AggState)
    (bs1 bs2 : Option Nat) (b : Bool) (ns : Option String) :
    aggregateCount
      (runBackfill contacts (runBackfill contacts agg bs1 b) bs2 false) ns =
    aggregateCount (runBackfill contacts agg bs1 b) ns := by
  have h2 : runBackfill contacts (runBackfill contacts agg bs1 b) bs2 false =
      runBackfill contacts agg bs1 b := by
    rw [runBackfill_eq contacts (runBackfill contacts agg bs1 b) bs2 false,
      if_neg (by simp)]
    apply foldl_aggregateInsert_id
    intro c hc
    rw [runBackfill_eq]
    exact foldl_aggregateInsert_key_mem contacts _ c hc
  rw [h2]

/-! ### Aggregate/contact-store consistency (C1) -/

/-- Well-formedness of the mirrored contact store: distinct document ids all
below the id allocator, and distinct emails (so the `.unique()` lookup on the
email index has at most one match). -/
def WF (s : DbState) : Prop :=
  (s.contacts.map (fun c => c.id)).Nodup ∧
  (∀ c ∈ s.contacts, c.id < s.nextId) ∧
  (s.contacts.map (fun c => c.email)).Nodup

/-- The consistency invariant: a well-formed store whose aggregate holds
exactly one item per live contact (as a multiset). -/
def Inv (s : DbState) : Prop :=
  WF s ∧ List.Perm s.agg (s.contacts.map contactKey)

theorem contactKey_nodup {l : List Contact}
    (h : (l.map (fun c => c.id)).Nodup) : (l.map contactKey).Nodup := by
  have hm : (l.map contactKey).map Prod.snd = l.map (fun c => c.id) := by
    rw [List.map_map]; rfl
  exact List.Nodup.of_map Prod.snd (hm ▸ h)

theorem mem_split_by_id {l : List Contact} {c : Contact}
    (hnd : (l.map (fun x => x.id)).Nodup) (hc : c ∈ l) :
    ∃ l1 l2, l = l1 ++ c :: l2 ∧ (∀ x ∈ l1, x.id ≠ c.id) ∧
      (∀ x ∈ l2, x.id ≠ c.id) := by
  obtain ⟨l1, l2, rfl⟩ := List.append_of_mem hc
  refine ⟨l1, l2, rfl, ?_, ?_⟩ <;>
  · have hmid := hnd
    rw [List.map_append, List.map_cons] at hmid
    obtain ⟨hni, _⟩ := List.nodup_cons.mp (List.nodup_middle.mp hmid)
    intro x hx hh
    exact hni (by
      rw [← hh]
      first
        | exact List.mem_append_left _ (List.mem_map_of_mem _ hx)
        | exact List.mem_append_right _ (List.mem_map_of_mem _ hx))

theorem update_by_id (l1 l2 : List Contact) (c u : Contact)
    (h1 : ∀ x ∈ l1, x.id ≠ c.id) (h2 : ∀ x ∈ l2, x.id ≠ c.id) :
    (l1 ++ c :: l2).map (fun x => if x.id == c.id then u else x) = l1 ++ u :: l2 := by
  rw [List.map_append, List.map_cons, if_pos (by simp)]
  congr 1
  · rw [show l1.map (fun x => if x.id == c.id then u else x) = l1.map id from
      List.map_congr_left (fun x hx => by
        rw [if_neg (by simpa [beq_iff_eq] using h1 x hx)]; rfl), List.map_id]
  · congr 1
    rw [show l2.map (fun x => if x.id == c.id then u else x) = l2.map id from
      List.map_congr_left (fun x hx => by
        rw [if_neg (by simpa [beq_iff_eq] using h2 x hx)]; rfl), List.map_id]

theorem remove_by_id (l1 l2 : List Contact) (c : Contact)
    (h1 : ∀ x ∈ l1, x.id ≠ c.id) (h2 : ∀ x ∈ l2, x.id ≠ c.id) :
    (l1 ++ c :: l2).filter (fun x => x.id != c.id) = l1 ++ l2 := by
  rw [List.filter_append, List.filter_cons, if_neg (by simp)]
  congr 1
  · exact List.filter_eq_self.mpr (fun x hx => by
      simpa [bne_iff_ne] using h1 x hx)
  · exact List.filter_eq_self.mpr (fun x hx => by
      simpa [bne_iff_ne] using h2 x hx)

theorem filter_ne_key (l : List Contact) (c : Contact)
    (h : ∀ x ∈ l, x.id ≠ c.id) :
    (l.map contactKey).filter (fun x => x != contactKey c) = l.map contactKey := by
  apply List.filter_eq_self.mpr
  intro x hx
  obtain ⟨d, hd, rfl⟩ := List.mem_map.mp hx
  rw [bne_iff_ne]
  exact fun hh => h d hd (congrArg Prod.snd hh)

theorem key_not_mem_map (l : List Contact) (p : Option String × Nat)
    (h : ∀ x ∈ l, x.id ≠ p.2) : p ∉ l.map contactKey := by
  intro hmem
  obtain ⟨d, hd, hk⟩ := List.mem_map.mp hmem
  exact h d hd (congrArg Prod.snd hk)

/-- The insert-if-absent fold over fresh, duplicate-free contacts yields
exactly one item per contact. -/
theorem foldl_insert_perm (l : List Contact) :
    ∀ (agg : AggState), (l.map contactKey).Nodup →
      (∀ c ∈ l, contactKey c ∉ agg) →
      List.Perm (l.foldl aggregateInsert agg) (l.map contactKey ++ agg) := by
  induction l with
  | nil => intro agg _ _; exact List.Perm.refl agg
  | cons c t ih =>
      intro agg hnd hfresh
      rw [List.foldl_cons, aggregateInsert,
        if_neg (hfresh c (List.mem_cons_self c t))]
      obtain ⟨hc, hnd2⟩ := List.nodup_cons.mp
        (by simpa only [List.map_cons] using hnd)
      have hfresh2 : ∀ d ∈ t, contactKey d ∉ contactKey c :: agg := by
        intro d hd
        rw [List.mem_cons, not_or]
        exact ⟨fun hh => hc (hh ▸ List.mem_map_of_mem contactKey hd),
          hfresh d (List.mem_cons_of_mem c hd)⟩
      refine (ih (contactKey c :: agg) hnd2 hfresh2).trans ?_
      rw [List.map_cons, List.cons_append]
      exact List.perm_middle

/-- A full backfill of a well-formed store establishes the invariant. -/
theorem fullBackfill_inv (s : DbState) (h : WF s) (bs? : Option Nat) :
    Inv (fullBackfill s bs?) := by
  obtain ⟨hid, hlt, hem⟩ := h
  refine ⟨⟨hid, hlt, hem⟩, ?_⟩
  show List.Perm (runBackfill s.contacts s.agg bs? true) (s.contacts.map contactKey)
  rw [runBackfill_eq, if_pos rfl]
  have := foldl_insert_perm s.contacts aggregateClear (contactKey_nodup hid)
    (by intro c _; simp [aggregateClear])
  simpa [aggregateClear] using this

/-- Patching an existing contact preserves the invariant (replacing the
aggregate item exactly when the partition key changed). -/
theorem store_update_inv (s : DbState) (existing u : Contact) (h : Inv s)
    (hmem : existing ∈ s.contacts) (hidu : u.id = existing.id)
    (hemu : u.email = existing.email) :
    Inv { contacts := s.contacts.map (fun c => if c.id == existing.id then u else c)
          agg := if existing.userGroup ≠ u.userGroup then
              aggregateReplace s.agg existing u
            else s.agg
          nextId := s.nextId } := by
  obtain ⟨⟨hid, hlt, hem⟩, hperm⟩ := h
  obtain ⟨l1, l2, hsplit, h1, h2⟩ := mem_split_by_id hid hmem
  have hmap : s.contacts.map (fun c => if c.id == existing.id then u else c) =
      l1 ++ u :: l2 := by
    rw [hsplit]
    exact update_by_id l1 l2 existing u h1 h2
  refine ⟨⟨?_, ?_, ?_⟩, ?_⟩
  · show ((s.contacts.map fun c => if c.id == existing.id then u else c).map
      (fun c => c.id)).Nodup
    rw [hmap, List.map_append, List.map_cons, hidu, ← List.map_cons,
      ← List.map_append, ← hsplit]
    exact hid
  · intro c hc
    have hc2 : c ∈ l1 ++ u :: l2 := by
      rw [← hmap]
      exact hc
    rcases List.mem_append.mp hc2 with hc | hc
    · exact hlt c (by rw [hsplit]; exact List.mem_append_left _ hc)
    · rcases List.mem_cons.mp hc with hc | hc
      · rw [hc, hidu]
        exact hlt existing hmem
      · exact hlt c (by
          rw [hsplit]
          exact List.mem_append_right _ (List.mem_cons_of_mem _ hc))
  · show ((s.contacts.map fun c => if c.id == existing.id then u else c).map
      (fun c => c.email)).Nodup
    rw [hmap, List.map_append, List.map_cons, hemu, ← List.map_cons,
      ← List.map_append, ← hsplit]
    exact hem
  · show List.Perm
      (if existing.userGroup ≠ u.userGroup then
        aggregateReplace s.agg existing u else s.agg)
      ((s.contacts.map fun c => if c.id == existing.id then u else c).map contactKey)
    rw [hmap]
    by_cases hug : existing.userGroup ≠ u.userGroup
    · rw [if_pos hug, aggregateReplace]
      have hperm2 : List.Perm s.agg
          (l1.map contactKey ++ contactKey existing :: l2.map contactKey) := by
        rw [← List.map_cons, ← List.map_append, ← hsplit]
        exact hperm
      have hpruned : List.Perm (s.agg.filter (fun x => x != contactKey existing))
          (l1.map contactKey ++ l2.map contactKey) := by
        refine (hperm2.filter _).trans ?_
        rw [List.filter_append, List.filter_cons, if_neg (by simp),
          filter_ne_key l1 existing h1, filter_ne_key l2 existing h2]
      have hnotmem : contactKey u ∉
          s.agg.filter (fun x => x != contactKey existing) := by
        rw [hpruned.mem_iff]
        intro hmm
        rcases List.mem_append.mp hmm with hm | hm
        · exact key_not_mem_map l1 (contactKey u)
            (fun x hx => by
              show x.id ≠ u.id
              rw [hidu]
              exact h1 x hx) hm
        · exact key_not_mem_map l2 (contactKey u)
            (fun x hx => by
              show x.id ≠ u.id
              rw [hidu]
              exact h2 x hx) hm
      rw [if_neg hnotmem, List.map_append, List.map_cons]
      exact (hpruned.cons (contactKey u)).trans List.perm_middle.symm
    · rw [if_neg hug]
      have hkey : contactKey u = contactKey existing := by
        rw [contactKey, contactKey, hidu, not_ne_iff.mp hug]
      rw [List.map_append, List.map_cons, hkey, ← List.map_cons,
        ← List.map_append, ← hsplit]
      exact hperm

/-- Inserting a fresh contact preserves the invariant. -/
theorem store_insert_inv (s : DbState) (u : Contact) (h : Inv s)
    (hfresh : ∀ c ∈ s.contacts, c.email ≠ u.email) (hidu : u.id = s.nextId) :
    Inv { contacts := s.contacts ++ [u], agg := aggregateInsert s.agg u
          nextId := s.nextId + 1 } := by
  obtain ⟨⟨hid, hlt, hem⟩, hperm⟩ := h
  have hkeyfresh : contactKey u ∉ s.agg := by
    rw [hperm.mem_iff]
    intro hmem
    obtain ⟨d, hd, hk⟩ := List.mem_map.mp hmem
    have hd1 : d.id = u.id := congrArg Prod.snd hk
    have hd2 := hlt d hd
    omega
  refine ⟨⟨?_, ?_, ?_⟩, ?_⟩
  · show ((s.contacts ++ [u]).map (fun c => c.id)).Nodup
    rw [List.map_append]
    refine List.Nodup.append hid (List.nodup_singleton _) ?_
    intro x hx hx2
    obtain ⟨d, hd, hk⟩ := List.mem_map.mp hx
    rw [List.map_singleton, List.mem_singleton] at hx2
    have := hlt d hd
    omega
  · intro c hc
    rcases List.mem_append.mp hc with hc | hc
    · have := hlt c hc
      show c.id < s.nextId + 1
      omega
    · rw [List.mem_singleton] at hc
      subst hc
      show c.id < s.nextId + 1
      omega
  · show ((s.contacts ++ [u]).map (fun c => c.email)).Nodup
    rw [List.map_append]
    refine List.Nodup.append hem (List.nodup_singleton _) ?_
    intro x hx hx2
    obtain ⟨d, hd, hk⟩ := List.mem_map.mp hx
    rw [List.map_singleton, List.mem_singleton] at hx2
    exact hfresh d hd (hk.symm ▸ hx2 ▸ rfl)
  · show List.Perm (aggregateInsert s.agg u) ((s.contacts ++ [u]).map contactKey)
    rw [aggregateInsert, if_neg hkeyfresh, List.map_append, List.map_singleton]
    exact (hperm.cons (contactKey u)).trans (List.perm_append_singleton _ _).symm

/-- Deleting a contact preserves the invariant. -/
theorem remove_inv (s : DbState) (existing : Contact) (h : Inv s)
    (hmem : existing ∈ s.contacts) :
    Inv { contacts := s.contacts.filter (fun c => c.id != existing.id)
          agg := aggregateDelete s.agg existing, nextId := s.nextId } := by
  obtain ⟨⟨hid, hlt, hem⟩, hperm⟩ := h
  obtain ⟨l1, l2, hsplit, h1, h2⟩ := mem_split_by_id hid hmem
  have hfilter : s.contacts.filter (fun c => c.id != existing.id) = l1 ++ l2 := by
    rw [hsplit]
    exact remove_by_id l1 l2 existing h1 h2
  refine ⟨⟨?_, ?_, ?_⟩, ?_⟩
  · show ((s.contacts.filter fun c => c.id != existing.id).map
      (fun c => c.id)).Nodup
    rw [hfilter, List.map_append]
    have hmid := hid
    rw [hsplit, List.map_append, List.map_cons] at hmid
    exact (List.nodup_cons.mp (List.nodup_middle.mp hmid)).2
  · intro c hc
    have hc2 : c ∈ l1 ++ l2 := by
      rw [← hfilter]
      exact hc
    apply hlt
    rw [hsplit]
    rcases List.mem_append.mp hc2 with hc | hc
    · exact List.mem_append_left _ hc
    · exact List.mem_append_right _ (List.mem_cons_of_mem _ hc)
  · show ((s.contacts.filter fun c => c.id != existing.id).map
      (fun c => c.email)).Nodup
    rw [hfilter, List.map_append]
    have hmid := hem
    rw [hsplit, List.map_append, List.map_cons] at hmid
    exact (List.nodup_cons.mp (List.nodup_middle.mp hmid)).2
  · show List.Perm (aggregateDelete s.agg existing)
      ((s.contacts.filter fun c => c.id != existing.id).map contactKey)
    rw [hfilter, aggregateDelete, List.map_append]
    have hperm2 : List.Perm s.agg
        (l1.map contactKey ++ contactKey existing :: l2.map contactKey) := by
      rw [← List.map_cons, ← List.map_append, ← hsplit]
      exact hperm
    refine (hperm2.filter _).trans ?_
    rw [List.filter_append, List.filter_cons, if_neg (by simp),
      filter_ne_key l1 existing h1, filter_ne_key l2 existing h2]

theorem storeContact_inv (s : DbState) (now : Int) (a : StoreArgs) (h : Inv s) :
    Inv (storeContact s now a) := by
  rw [storeContact]
  cases hfind : s.contacts.find? (fun c => c.email == a.email) with
  | some existing =>
      exact store_update_inv s existing _ h
        (List.mem_of_find?_eq_some hfind) rfl rfl
  | none =>
      refine store_insert_inv s _ h ?_ rfl
      intro c hc hcEq
      exact (List.find?_eq_none.mp hfind c hc) (beq_iff_eq.mpr hcEq)

theorem removeContact_inv (s : DbState) (email : String) (h : Inv s) :
    Inv (removeContact s email) := by
  rw [removeContact]
  cases hfind : s.contacts.find? (fun c => c.email == email) with
  | some existing => exact remove_inv s existing h (List.mem_of_find?_eq_some hfind)
  | none => exact h

theorem inv_applyOps (ops : List ContactOp) :
    ∀ (s : DbState), Inv s → Inv (applyOps s ops) := by
  induction ops with
  | nil => intro s h; exact h
  | cons op t ih =>
      intro s h
      show Inv ((op :: t).foldl applyOp s)
      rw [List.foldl_cons]
      refine ih _ ?_
      cases op with
      | store now args => exact storeContact_inv s now args h
      | remove email => exact removeContact_inv s email h

/-- Under the invariant, both aggregate-backed counts are exact. -/
theorem inv_count (s : DbState) (h : Inv s) (g : String) :
    countContacts s ⟨none, none, none⟩ = s.contacts.length ∧
    countContacts s ⟨some g, none, none⟩ =
      (s.contacts.filter (fun c => c.userGroup == some g)).length := by
  obtain ⟨_, hperm⟩ := h
  constructor
  · show aggregateCountTotal s.agg = _
    rw [aggregateCountTotal_eq_length, hperm.length_eq, List.length_map]
  · show aggregateCount s.agg (some g) = _
    have hc : aggregateCount s.agg (some g) =
        s.contacts.countP (fun c => c.userGroup == some g) := by
      rw [aggregateCount, ← List.countP_eq_length_filter,
        hperm.countP_eq, List.countP_map]
      exact List.countP_congr (fun c _ => Iff.rfl)
    rw [hc, List.countP_eq_length_filter]

/-- C1: after a full backfill, every sequence of `storeContact` and
`removeContact` mutations keeps the aggregate exact — the unfiltered
`countContacts` equals the number of live contacts, and the userGroup-filtered
count equals the number of live contacts in that group. -/
theorem contact_count_consistency (s0 : DbState) (bs? : Option Nat)
    (ops : List ContactOp) (g : String) (h0 : WF s0) :
    countContacts (applyOps (fullBackfill s0 bs?) ops) ⟨none, none, none⟩ =
      (applyOps (fullBackfill s0 bs?) ops).contacts.length ∧
    countContacts (applyOps (fullBackfill s0 bs?) ops) ⟨some g, none, none⟩ =
      ((applyOps (fullBackfill s0 bs?) ops).contacts.filter
        (fun c => c.userGroup == some g)).length :=
  inv_count _ (inv_applyOps ops _ (fullBackfill_inv s0 h0 bs?)) g

/-- A concrete mutation sequence for the consistency theorem: two inserts, an
update moving a contact between groups, and a delete. -/
def c1Ops : List ContactOp :=
  [ContactOp.store 10 { email := "a@x.com", userGroup := some "g1" },
    ContactOp.store 11 { email := "b@x.com", userGroup := some "g1" },
    ContactOp.store 12 { email := "a@x.com", userGroup := some "g2" },
    ContactOp.remove "b@x.com"]

theorem contact_count_consistency_witness :
    WF ⟨[], [], 0⟩ ∧
    (countContacts (applyOps (fullBackfill ⟨[], [], 0⟩ none) c1Ops)
        ⟨none, none, none⟩ =
      (applyOps (fullBackfill ⟨[], [], 0⟩ none) c1Ops).contacts.length ∧
    countContacts (applyOps (fullBackfill ⟨[], [], 0⟩ none) c1Ops)
        ⟨some "g1", none, none⟩ =
      ((applyOps (fullBackfill ⟨[], [], 0⟩ none) c1Ops).contacts.filter
        (fun c => c.userGroup == some "g1")).length) :=
  ⟨by constructor <;> simp [WF], contact_count_consistency ⟨[], [], 0⟩ none c1Ops "g1"
    (by constructor <;> simp [WF])⟩

/-- C10: the zod-wrapped rate-limit handlers and the component query handlers
compute identical results on every database state, current time, and
arguments. -/
theorem zod_wrapped_handlers_equal (log : List EmailOp) (now : Int) (e : String)
    (W : Int) (m : Nat) :
    zCheckRecipientRateLimit log now e W m = checkRecipientRateLimit log now e W m ∧
    zCheckGlobalRateLimit log now W m = checkGlobalRateLimit log now W m :=
  ⟨rfl, rfl⟩

end Loops
